import Mathlib

/-!
Verification of the FastAPI-generator frontend core: the path-tree builder and
file browser of `src/components/CodePreview.tsx`, the workflow handlers of
`src/app/page.tsx`, and the specification editor / validation flow of
`CPSPreview`.  TypeScript values are embedded as follows: JS objects used as
string-keyed maps become association lists (`List (String × String)` for file
maps, `List (String × Json)` for specification objects), JS `null` becomes
`none`, asynchronous request/response pairs become explicit response arguments,
and each React state-setter sequence becomes a pure state-transformation
function.
-/

/-! ### Ordering primitives

`natCmp` is the three-way comparison on `Nat`; `cmpList` compares lists
lexicographically, element by element.  These model the comparisons performed
by JS `String.prototype.localeCompare`. -/

def natCmp (m n : Nat) : Ordering :=
  if m < n then Ordering.lt else if n < m then Ordering.gt else Ordering.eq

def cmpList (cmp : α → α → Ordering) : List α → List α → Ordering
  | [], [] => Ordering.eq
  | [], _ :: _ => Ordering.lt
  | _ :: _, [] => Ordering.gt
  | a :: as, b :: bs => (cmp a b).then (cmpList cmp as bs)

/-- Primary collation key of a string: the code points of its lowercased
characters. -/
def lowerKey (s : String) : List Nat :=
  s.data.map (fun c => c.toLower.toNat)

/-- Tertiary (case) collation key of a string: 1 for an uppercase character,
0 otherwise, so that lowercase sorts before uppercase on a primary tie. -/
def caseKey (s : String) : List Nat :=
  s.data.map (fun c => if c.isUpper then 1 else 0)

/-- Models JS `a.localeCompare(b)` under the default locale, restricted to the
ASCII strings appearing in file paths: the primary comparison is
case-insensitive (lowercased code points), and a primary tie is broken by
case, lowercase first — e.g. `"a"` sorts before `"B"`, unlike the plain
code-point order. -/
def localeCompare (a b : String) : Ordering :=
  (cmpList natCmp (lowerKey a) (lowerKey b)).then
    (cmpList natCmp (caseKey a) (caseKey b))

/-! ### Path splitting and joining

`splitSlash` models JS `path.split('/')` (always returns at least one
segment, keeps empty segments); `joinSegs` models `segments.join('/')`. -/

def splitChars : List Char → List (List Char)
  | [] => [[]]
  | c :: cs =>
    if c = '/' then [] :: splitChars cs
    else
      match splitChars cs with
      | s :: rest => (c :: s) :: rest
      | [] => [[c]]

def splitSlash (s : String) : List String :=
  (splitChars s.data).map (fun l => String.mk l)

def joinSegs : List String → String
  | [] => ""
  | [s] => s
  | s :: rest => s ++ "/" ++ joinSegs rest

/-- Models JS `p.endsWith(suffix)`. -/
def strEndsWith (p suffix : String) : Bool :=
  suffix.data.isSuffixOf p.data

/-! ### The path tree model (`CodePreview.tsx`, `FileNode` / `buildTree`)

`FileNode` embeds the TS type
`{ name, path, type: 'file' | 'folder', children }`. -/

inductive NodeType where
  | file
  | folder
deriving DecidableEq, Repr

inductive FileNode where
  | mk (name : String) (path : String) (ntype : NodeType) (children : List FileNode)

def FileNode.name : FileNode → String
  | FileNode.mk nm _ _ _ => nm

def FileNode.path : FileNode → String
  | FileNode.mk _ p _ _ => p

def FileNode.ntype : FileNode → NodeType
  | FileNode.mk _ _ t _ => t

def FileNode.children : FileNode → List FileNode
  | FileNode.mk _ _ _ cs => cs

def FileNode.withChildren : FileNode → List FileNode → FileNode
  | FileNode.mk nm p t _, cs => FileNode.mk nm p t cs

def namesOf (f : List FileNode) : List String :=
  f.map FileNode.name

/-- Models `list.find(n => n.name === name)` from `findOrCreate`, returning
the nodes before the first match, the match, and the nodes after it (so that
an in-place mutation of the found node can be rendered functionally). -/
def findSplit (p : String) : List FileNode → Option (List FileNode × FileNode × List FileNode)
  | [] => none
  | n :: ns =>
    if n.name = p then some ([], n, ns)
    else
      match findSplit p ns with
      | some (l1, m, l2) => some (n :: l1, m, l2)
      | none => none

/-- Inserting one path (as its list of `/`-segments) into one level of the
forest, embedding the `parts.forEach` walk of `buildTree`: each segment
reuses the first node of the current level with the same name (`findOrCreate`,
keeping its `path` and `type` from the first occurrence) or pushes a fresh
node at the end of the level; every segment but the last is a folder and is
descended into, the last is a file.  `pre` holds the segments already
consumed, so a created node's `path` is `parts.slice(0, i+1).join('/')`. -/
def ins (pre : List String) : List String → List FileNode → List FileNode
  | [], lvl => lvl
  | [p], lvl =>
    match findSplit p lvl with
    | some _ => lvl
    | none => lvl ++ [FileNode.mk p (joinSegs (pre ++ [p])) NodeType.file []]
  | p :: q :: rest, lvl =>
    match findSplit p lvl with
    | some (l1, n, l2) =>
      l1 ++ [n.withChildren (ins (pre ++ [p]) (q :: rest) n.children)] ++ l2
    | none =>
      lvl ++ [FileNode.mk p (joinSegs (pre ++ [p])) NodeType.folder (ins (pre ++ [p]) (q :: rest) [])]

/-- The forest accumulated by `paths.forEach` in `buildTree`, before sorting. -/
def insAll (acc : List FileNode) (paths : List String) : List FileNode :=
  paths.foldl (fun f p => ins [] (splitSlash p) f) acc

/-- The first node of a level with the given name. -/
def findNode (p : String) : List FileNode → Option FileNode
  | [] => none
  | n :: ns => if n.name = p then some n else findNode p ns

/-- True when walking the segments of `parts` through the forest (first node
with a matching name at each level) ends on an existing folder node — the one
situation in which inserting `parts` does not yield a file node there. -/
def folderAt : List String → List FileNode → Bool
  | [], _ => false
  | [p], lvl =>
    match findNode p lvl with
    | some n => n.ntype == NodeType.folder
    | none => false
  | p :: q :: rest, lvl =>
    match findNode p lvl with
    | some n => folderAt (q :: rest) n.children
    | none => false

/-! ### Sorting (`sortTree`)

The TS comparator is
`(a, b) => a.type === b.type ? a.name.localeCompare(b.name) : (a.type === 'folder' ? -1 : 1)`.
JS `Array.prototype.sort` is specified to be stable, and a consistent
comparator determines its result uniquely, so it is modeled by stable
insertion sort. -/

def nodeCmp (a b : FileNode) : Ordering :=
  if a.ntype = b.ntype then localeCompare a.name b.name
  else if a.ntype = NodeType.folder then Ordering.lt else Ordering.gt

def nodeLE (a b : FileNode) : Bool :=
  match nodeCmp a b with
  | Ordering.gt => false
  | _ => true

def insSorted (le : α → α → Bool) (a : α) : List α → List α
  | [] => [a]
  | b :: bs => if le a b then a :: b :: bs else b :: insSorted le a bs

def stableSort (le : α → α → Bool) : List α → List α
  | [] => []
  | a :: as => insSorted le a (stableSort le as)

/-- Recursively sorts the children of every node.  The source's `sortTree`
sorts a level first and then maps the recursion over the sorted array; since
the comparator reads only `name` and `type`, which the recursion preserves,
sorting and recursing commute — the source's orientation is recovered as the
theorem `sortTree_eq_source` below. -/
def sortChildren : List FileNode → List FileNode
  | [] => []
  | FileNode.mk nm p t cs :: rest =>
    FileNode.mk nm p t (stableSort nodeLE (sortChildren cs)) :: sortChildren rest

def sortTree (nodes : List FileNode) : List FileNode :=
  stableSort nodeLE (sortChildren nodes)

/-- Embeds `buildTree` of `CodePreview.tsx`: insert every path, then sort
every level recursively. -/
def buildTree (paths : List String) : List FileNode :=
  sortTree (insAll [] paths)

/-! ### Observations of the tree -/

/-- The segment sequences (ancestor names followed by the node's own name) of
all file nodes of a forest. -/
def forestSegs : List FileNode → List (List String)
  | [] => []
  | FileNode.mk nm _ t cs :: rest =>
    ((if t = NodeType.file then [[nm]] else []) ++ (forestSegs cs).map (fun s => nm :: s))
      ++ forestSegs rest

/-- The paths of the leaf (file) nodes of a forest, reconstructed by joining
each node's ancestor names and its own name with `/`. -/
def leafPaths (f : List FileNode) : List String :=
  (forestSegs f).map joinSegs

/-! ### Tree invariants (claim C2) -/

/-- The sibling order realized by the comparator: a folder strictly precedes
a file, and two nodes of the same kind are ordered by the (case-aware)
`localeCompare` order on their names. -/
def siblingOrder (a b : FileNode) : Prop :=
  (a.ntype = NodeType.folder ∧ b.ntype = NodeType.file)
    ∨ (a.ntype = b.ntype ∧ localeCompare a.name b.name ≠ Ordering.gt)

mutual

def nodupNode : FileNode → Prop
  | FileNode.mk _ _ _ cs => (namesOf cs).Nodup ∧ eachNodup cs

def eachNodup : List FileNode → Prop
  | [] => True
  | n :: ns => nodupNode n ∧ eachNodup ns

end

/-- At every level of the forest, recursively, no two sibling nodes share a
name. -/
def treeNodup (f : List FileNode) : Prop :=
  (namesOf f).Nodup ∧ eachNodup f

mutual

def orderedNode : FileNode → Prop
  | FileNode.mk _ _ _ cs => cs.Pairwise siblingOrder ∧ eachOrdered cs

def eachOrdered : List FileNode → Prop
  | [] => True
  | n :: ns => orderedNode n ∧ eachOrdered ns

end

/-- At every level of the forest, recursively, folders precede files and
nodes of the same kind are in (case-aware) name order. -/
def treeOrdered (f : List FileNode) : Prop :=
  f.Pairwise siblingOrder ∧ eachOrdered f

mutual

def pathNode : List String → FileNode → Prop
  | anc, FileNode.mk nm p _ cs => p = joinSegs (anc ++ [nm]) ∧ eachPath (anc ++ [nm]) cs

def eachPath : List String → List FileNode → Prop
  | _, [] => True
  | anc, n :: ns => pathNode anc n ∧ eachPath anc ns

end

/-- Every node's `path` equals the `/`-join of its ancestors' names plus its
own name, where `anc` is the name chain above the forest. -/
def treePaths (anc : List String) (f : List FileNode) : Prop :=
  eachPath anc f

/-! ### JSON values and file maps

`Json` models the JS values held in component state (the CPS specification,
validation results); numbers are modeled as integers, which covers every
value the app manipulates.  A `FileMap` embeds the JS object
`Record<string, string>`: an insertion-ordered association list with unique
keys. -/

inductive Json where
  | null
  | bool (b : Bool)
  | num (n : Int)
  | str (s : String)
  | arr (elems : List Json)
  | obj (fields : List (String × Json))

/-- JS truthiness of a `Json` value (`undefined`, i.e. an absent key, is
handled at each use site): `null`, `false`, `0` and `""` are falsy; arrays
and objects are always truthy. -/
def falsy : Json → Bool
  | Json.null => true
  | Json.bool b => !b
  | Json.num n => n == 0
  | Json.str s => s == ""
  | Json.arr _ => false
  | Json.obj _ => false

abbrev FileMap := List (String × String)

/-- Key lookup in a JS object. -/
def lookupFile (m : FileMap) (k : String) : Option String :=
  (m.find? (fun kv => kv.1 == k)).map (fun kv => kv.2)

def keysOf (m : FileMap) : List String :=
  m.map Prod.fst

/-! ### Diff results (`{ files: [{path, status}], summary: {...} }`) -/

structure DiffEntry where
  path : String
  status : String
deriving DecidableEq, Repr

structure DiffSummary where
  added : Nat
  modified : Nat
  removed : Nat
deriving DecidableEq, Repr

structure DiffResult where
  files : List DiffEntry
  summary : DiffSummary
deriving DecidableEq, Repr

/-! ### The workflow state of `page.tsx` (`Home` component)

One field per `useState` hook: `cps`, `files`, `loading`, `error`, `mode`,
`feedback`, `oldFiles`, `diff`.  `none` embeds JS `null`. -/

inductive Mode where
  | general
  | ragOnly
deriving DecidableEq, Repr

structure AppState where
  cps : Option Json
  files : FileMap
  loading : Bool
  error : Option String
  mode : Mode
  feedback : String
  oldFiles : Option FileMap
  diff : Option DiffResult

/-- Outcome of an awaited `fetch` + `res.json()`: either the parsed payload
or a thrown error (network failure / invalid JSON) carrying the message the
`catch` block reads. -/
inductive FetchResult (α : Type) where
  | ok (data : α)
  | thrown (msg : String)

/-- Parsed payload of a `/api/generate` or `/api/regenerate` response, split
along the branches `handleGenerate` distinguishes, in dispatch order: a
truthy `detail` field (its `JSON.stringify` rendering), else a truthy `diff`
with its `files`, else a `files` field, else the bare payload used as the
file map (`data.files || data`). -/
inductive GenData where
  | detail (d : String)
  | filesDiff (files : FileMap) (diff : DiffResult)
  | filesOnly (files : FileMap)
  | bare (files : FileMap)

/-- The request issued by `handleGenerate` (lines 45-46 of `page.tsx`):
`oldFiles ? "/api/regenerate" : "/api/generate"` with body
`oldFiles ? { cps, old_files: oldFiles } : cps`. -/
inductive GenRequest where
  | generate (cps : Option Json)
  | regenerate (cps : Option Json) (oldFiles : FileMap)

def generateRequest (s : AppState) : GenRequest :=
  match s.oldFiles with
  | some old => GenRequest.regenerate s.cps old
  | none => GenRequest.generate s.cps

def endpointOf : GenRequest → String
  | GenRequest.generate _ => "/api/generate"
  | GenRequest.regenerate _ _ => "/api/regenerate"

/-- State transformation of `handleGenerate`: set `loading`, clear `error`
and `diff`, then dispatch on the response — a structured `detail` failure
records the error and returns, a `diff` response replaces `files` and
records the diff, otherwise `files` is replaced by `data.files || data`; a
thrown error records its message; `finally` clears `loading`. -/
def handleGenerate (s : AppState) (r : FetchResult GenData) : AppState :=
  let s1 : AppState := { s with loading := true, error := none, diff := none }
  let s2 : AppState :=
    match r with
    | FetchResult.thrown msg => { s1 with error := some msg }
    | FetchResult.ok (GenData.detail d) => { s1 with error := some d }
    | FetchResult.ok (GenData.filesDiff fs df) => { s1 with files := fs, diff := some df }
    | FetchResult.ok (GenData.filesOnly fs) => { s1 with files := fs }
    | FetchResult.ok (GenData.bare fs) => { s1 with files := fs }
  { s2 with loading := false }

/-- Holds exactly when the `generate` call failed: the collaborator returned
a structured failure (truthy `detail`) or the request threw. -/
def genFails : FetchResult GenData → Prop
  | FetchResult.thrown _ => True
  | FetchResult.ok (GenData.detail _) => True
  | _ => False

/-- State transformation of `handleBack`:
`setOldFiles(files); setFiles({}); setDiff(null)`. -/
def handleBack (s : AppState) : AppState :=
  { s with oldFiles := some s.files, files := [], diff := none }

/-- Parsed payload of a `/api/refine` response: a truthy `error` field (which
`handleRefine` rethrows) or the refined `files`. -/
inductive RefineData where
  | failure (e : String)
  | success (files : FileMap)

/-- The request body `{ cps, files, feedback }` sent by `handleRefine`. -/
structure RefineRequest where
  cps : Option Json
  files : FileMap
  feedback : String

/-- State transformation of `handleRefine`, paired with the request it sends
(`none` when no network call is made): `if (!feedback) return;` guards the
whole body, then the usual loading/error bracket; on success `files` is
replaced and the feedback text cleared. -/
def handleRefine (s : AppState) (r : FetchResult RefineData) : AppState × Option RefineRequest :=
  if s.feedback = "" then (s, none)
  else
    let req : RefineRequest := { cps := s.cps, files := s.files, feedback := s.feedback }
    let s1 : AppState := { s with loading := true, error := none }
    let s2 : AppState :=
      match r with
      | FetchResult.thrown msg => { s1 with error := some msg }
      | FetchResult.ok (RefineData.failure e) => { s1 with error := some e }
      | FetchResult.ok (RefineData.success fs) => { s1 with files := fs, feedback := "" }
    ({ s2 with loading := false }, some req)

/-- The in-place file edit forwarded by the File Browser
(`onUpdateFile={(path, content) => setFiles(prev => ({ ...prev, [path]: content }))}`):
a spread copy updates an existing key in place (keeping its position) or
appends a new key at the end. -/
def updateFile : FileMap → String → String → FileMap
  | [], path, content => [(path, content)]
  | kv :: rest, path, content =>
    if kv.1 = path then (path, content) :: rest else kv :: updateFile rest path content

/-! ### File browser initial selection (`CodePreview`, lines 124-131) -/

/-- JS truthiness of the nullable string `selectedPath` (`null` and `""` are
falsy). -/
def strTruthy (s : Option String) : Bool :=
  match s with
  | none => false
  | some v => v != ""

/-- The `useMemo` initial-selection policy: when no path is selected and the
file map is non-empty, select the first key ending in `README.md`, else the
first key ending in `main.py`, else the first key; otherwise leave the
selection unchanged. -/
def initialSelection (sel : Option String) (files : FileMap) : Option String :=
  if !strTruthy sel && !files.isEmpty then
    let candidates := keysOf files
    some (((candidates.find? (fun p => strEndsWith p "README.md")).getD
      ((candidates.find? (fun p => strEndsWith p "main.py")).getD (candidates.headD ""))))
  else sel

/-! ### Specification editor (`CPSPreview`) -/

/-- Key lookup in a JS object of `Json` fields. -/
def getField (fields : List (String × Json)) (k : String) : Option Json :=
  (fields.find? (fun f => f.1 == k)).map (fun f => f.2)

/-- Key assignment on a JS object: an existing key keeps its position, a new
key is appended. -/
def setField : List (String × Json) → String → Json → List (String × Json)
  | [], k, v => [(k, v)]
  | f :: fs, k, v => if f.1 = k then (k, v) :: fs else f :: setField fs k v

/-- Embeds `updateNested(path, value)` of `CPSPreview`, acting on the fields
of the specification object `cps`: walk the path, replacing a missing or
falsy intermediate value by a fresh `{}` (`if (!current[path[i]]) current[path[i]] = {}`)
and descending, then assign the value at the last key.  Descending into a
truthy non-object value is a JS `TypeError` (property assignment on a
primitive in strict mode), rendered as `Except.error`; descending into an
array (whose named properties are dropped by `JSON.stringify`) is likewise
out of the faithful fragment and rendered as an error.  An empty path (which
in JS would assign the key `"undefined"`) is not modeled; the claims only
concern non-empty paths. -/
def updateNested (cps : List (String × Json)) : List String → Json → Except String (List (String × Json))
  | [], _ => Except.error "empty field path"
  | [last], v => Except.ok (setField cps last v)
  | k :: k2 :: rest, v =>
    let cur : Json :=
      match getField cps k with
      | none => Json.obj []
      | some j => if falsy j then Json.obj [] else j
    match cur with
    | Json.obj inner =>
      match updateNested inner (k2 :: rest) v with
      | Except.ok inner2 => Except.ok (setField cps k (Json.obj inner2))
      | Except.error e => Except.error e
    | Json.arr _ => Except.error "property assignment on an array is not modeled"
    | _ => Except.error "TypeError: cannot create a property on a primitive value"

/-- Reads the value at a key path, descending through nested objects. -/
def getPath (fields : List (String × Json)) : List String → Option Json
  | [] => none
  | [k] => getField fields k
  | k :: rest =>
    match getField fields k with
    | some (Json.obj inner) => getPath inner rest
    | _ => none

/-- True when every existing value strictly inside the path (at a proper,
non-empty position) is a nested object or falsy — the condition under which
`updateNested` does not hit a JS `TypeError`. -/
def pathClear (fields : List (String × Json)) : List String → Bool
  | [] => true
  | [_] => true
  | k :: k2 :: rest =>
    match getField fields k with
    | none => true
    | some j =>
      if falsy j then true
      else
        match j with
        | Json.obj inner => pathClear inner (k2 :: rest)
        | _ => false

/-! ### Validation flow (`runValidation`)

`runValidation` is re-run on every `cps` change; each completed request ends
in an unconditional `setValidation(data)` (or, on a thrown error, a
`console.error` that leaves the state unchanged).  There is no request
tagging or cancellation, so the held result is determined purely by the
order in which responses arrive. -/

def runValidationArrival (v : Option Json) (r : FetchResult Json) : Option Json :=
  match r with
  | FetchResult.ok data => some data
  | FetchResult.thrown _ => v

/-- The validation result held after a sequence of response arrivals. -/
def applyValidationArrivals (v : Option Json) (rs : List (FetchResult Json)) : Option Json :=
  rs.foldl runValidationArrival v

/-! ## Theorems

### Comparator facts -/

theorem natCmp_eq_iff (m n : Nat) : natCmp m n = Ordering.eq ↔ m = n := by
  unfold natCmp
  split
  · constructor
    · intro h
      exact absurd h (by simp)
    · omega
  · split
    · constructor
      · intro h
        exact absurd h (by simp)
      · omega
    · constructor
      · intro _
        omega
      · intro _
        rfl

theorem natCmp_lt_trans {a b c : Nat} (h1 : natCmp a b = Ordering.lt)
    (h2 : natCmp b c = Ordering.lt) : natCmp a c = Ordering.lt := by
  unfold natCmp at *
  split at h1 <;> split at h2 <;> simp_all <;> omega

theorem natCmp_gt_iff (m n : Nat) : natCmp m n = Ordering.gt ↔ n < m := by
  unfold natCmp
  split
  · simp
    omega
  · split <;> simp <;> omega

theorem cmpList_eq_iff (as bs : List Nat) :
    cmpList natCmp as bs = Ordering.eq ↔ as = bs := by
  induction as generalizing bs with
  | nil =>
    cases bs <;> simp [cmpList]
  | cons a as ih =>
    cases bs with
    | nil => simp [cmpList]
    | cons b bs =>
      simp only [cmpList]
      cases hab : natCmp a b with
      | lt =>
        have : a ≠ b := by
          intro h
          rw [h, (natCmp_eq_iff b b).2 rfl] at hab
          exact absurd hab (by simp)
        simp [Ordering.then, this]
      | gt =>
        have : a ≠ b := by
          intro h
          rw [h, (natCmp_eq_iff b b).2 rfl] at hab
          exact absurd hab (by simp)
        simp [Ordering.then, this]
      | eq =>
        have hab2 : a = b := (natCmp_eq_iff a b).1 hab
        simp [Ordering.then, hab2, ih]

theorem cmpList_lt_trans {as bs cs : List Nat}
    (h1 : cmpList natCmp as bs = Ordering.lt)
    (h2 : cmpList natCmp bs cs = Ordering.lt) :
    cmpList natCmp as cs = Ordering.lt := by
  induction as generalizing bs cs with
  | nil =>
    cases bs with
    | nil =>
      cases cs <;> simp_all [cmpList]
    | cons b bs =>
      cases cs with
      | nil => simp_all [cmpList]
      | cons c cs => simp [cmpList]
  | cons a as ih =>
    cases bs with
    | nil => simp_all [cmpList]
    | cons b bs =>
      cases cs with
      | nil => simp_all [cmpList]
      | cons c cs =>
        simp only [cmpList] at *
        cases hab : natCmp a b with
        | lt =>
          cases hbc : natCmp b c with
          | lt => simp [Ordering.then, natCmp_lt_trans hab hbc]
          | eq =>
            have : b = c := (natCmp_eq_iff b c).1 hbc
            subst this
            simp [Ordering.then, hab]
          | gt => simp [hbc, Ordering.then] at h2
        | eq =>
          have : a = b := (natCmp_eq_iff a b).1 hab
          subst this
          cases hbc : natCmp a c with
          | lt => simp [Ordering.then, hbc]
          | eq =>
            rw [hab] at h1
            rw [hbc] at h2
            simp only [Ordering.then] at h1 h2
            simp [Ordering.then, hbc, ih h1 h2]
          | gt => simp [hbc, Ordering.then] at h2
        | gt => simp [hab, Ordering.then] at h1

theorem cmpList_swap (as bs : List Nat) :
    cmpList natCmp as bs = (cmpList natCmp bs as).swap := by
  induction as generalizing bs with
  | nil => cases bs <;> simp [cmpList, Ordering.swap]
  | cons a as ih =>
    cases bs with
    | nil => simp [cmpList, Ordering.swap]
    | cons b bs =>
      simp only [cmpList]
      have hsw : natCmp a b = (natCmp b a).swap := by
        unfold natCmp
        split <;> split <;> simp_all [Ordering.swap] <;> omega
      cases hba : natCmp b a <;>
        simp_all [Ordering.swap, Ordering.then]

theorem localeCompare_le_trans {a b c : String}
    (h1 : localeCompare a b ≠ Ordering.gt) (h2 : localeCompare b c ≠ Ordering.gt) :
    localeCompare a c ≠ Ordering.gt := by
  unfold localeCompare at *
  cases hab : cmpList natCmp (lowerKey a) (lowerKey b) with
  | gt => rw [hab] at h1; simp [Ordering.then] at h1
  | lt =>
    cases hbc : cmpList natCmp (lowerKey b) (lowerKey c) with
    | gt => rw [hbc] at h2; simp [Ordering.then] at h2
    | lt =>
      rw [cmpList_lt_trans hab hbc]
      simp [Ordering.then]
    | eq =>
      have hkey : lowerKey b = lowerKey c := (cmpList_eq_iff _ _).1 hbc
      rw [← hkey, hab]
      simp [Ordering.then]
  | eq =>
    have hkey : lowerKey a = lowerKey b := (cmpList_eq_iff _ _).1 hab
    cases hbc : cmpList natCmp (lowerKey b) (lowerKey c) with
    | gt => rw [hbc] at h2; simp [Ordering.then] at h2
    | lt =>
      rw [hkey, hbc]
      simp [Ordering.then]
    | eq =>
      have hkey2 : lowerKey b = lowerKey c := (cmpList_eq_iff _ _).1 hbc
      rw [hkey, hkey2, (cmpList_eq_iff _ _).2 rfl]
      rw [hab] at h1
      rw [hbc] at h2
      simp only [Ordering.then] at h1 h2 ⊢
      cases hab2 : cmpList natCmp (caseKey a) (caseKey b) with
      | gt => exact absurd hab2 h1
      | lt =>
        cases hbc2 : cmpList natCmp (caseKey b) (caseKey c) with
        | gt => exact absurd hbc2 h2
        | lt => rw [cmpList_lt_trans hab2 hbc2]; simp
        | eq => rw [← (cmpList_eq_iff _ _).1 hbc2, hab2]; simp
      | eq =>
        rw [(cmpList_eq_iff _ _).1 hab2]
        exact h2

theorem localeCompare_total (a b : String) :
    localeCompare a b ≠ Ordering.gt ∨ localeCompare b a ≠ Ordering.gt := by
  unfold localeCompare
  rw [cmpList_swap (lowerKey b) (lowerKey a), cmpList_swap (caseKey b) (caseKey a)]
  cases cmpList natCmp (lowerKey a) (lowerKey b) with
  | lt => left; simp [Ordering.then, Ordering.swap]
  | gt => right; simp [Ordering.then, Ordering.swap]
  | eq =>
    cases cmpList natCmp (caseKey a) (caseKey b) with
    | lt => left; simp [Ordering.then, Ordering.swap]
    | gt => right; simp [Ordering.then, Ordering.swap]
    | eq => left; simp [Ordering.then, Ordering.swap]

theorem nodeLE_true_iff (a b : FileNode) :
    nodeLE a b = true ↔ nodeCmp a b ≠ Ordering.gt := by
  unfold nodeLE
  cases nodeCmp a b <;> simp

theorem nodeLE_trans {a b c : FileNode} (h1 : nodeLE a b = true) (h2 : nodeLE b c = true) :
    nodeLE a c = true := by
  rw [nodeLE_true_iff] at h1 h2 ⊢
  cases ha : a.ntype <;> cases hb : b.ntype <;> cases hc : c.ntype <;>
    simp [nodeCmp, ha, hb, hc] at h1 h2 ⊢ <;>
    exact localeCompare_le_trans h1 h2

theorem nodeLE_total (a b : FileNode) : nodeLE a b = true ∨ nodeLE b a = true := by
  rw [nodeLE_true_iff, nodeLE_true_iff]
  cases ha : a.ntype <;> cases hb : b.ntype <;> simp [nodeCmp, ha, hb] <;>
    exact localeCompare_total _ _

theorem siblingOrder_iff (a b : FileNode) : siblingOrder a b ↔ nodeLE a b = true := by
  rw [nodeLE_true_iff]
  unfold siblingOrder
  cases ha : a.ntype <;> cases hb : b.ntype <;> simp [nodeCmp, ha, hb]

/-! ### Split / join roundtrip -/

theorem splitChars_ne_nil (cs : List Char) : splitChars cs ≠ [] := by
  induction cs with
  | nil => simp [splitChars]
  | cons c cs ih =>
    simp only [splitChars]
    split
    · simp
    · cases h : splitChars cs with
      | nil => exact absurd h ih
      | cons s rest => simp

theorem splitSlash_ne_nil (s : String) : splitSlash s ≠ [] := by
  unfold splitSlash
  intro h
  exact splitChars_ne_nil s.data (by simpa using h)

theorem joinSegs_cons_cons (a b : String) (t : List String) :
    joinSegs (a :: b :: t) = a ++ "/" ++ joinSegs (b :: t) := rfl

theorem joinSplit_data (cs : List Char) :
    (joinSegs ((splitChars cs).map (fun l => String.mk l))).data = cs := by
  induction cs with
  | nil => rfl
  | cons c cs ih =>
    simp only [splitChars]
    by_cases hc : c = '/'
    · rw [if_pos hc]
      subst hc
      cases h : splitChars cs with
      | nil => exact absurd h (splitChars_ne_nil cs)
      | cons s rest =>
        rw [h] at ih
        simp only [List.map] at ih ⊢
        rw [joinSegs_cons_cons]
        simp only [String.data_append, ih]
        rfl
    · rw [if_neg hc]
      cases h : splitChars cs with
      | nil => exact absurd h (splitChars_ne_nil cs)
      | cons s rest =>
        rw [h] at ih
        simp only [List.map] at ih ⊢
        cases rest with
        | nil =>
          simp only [List.map, joinSegs] at ih ⊢
          show c :: s = c :: cs
          rw [← ih]
        | cons r rest2 =>
          simp only [List.map] at ih ⊢
          rw [joinSegs_cons_cons] at ih ⊢
          simp only [String.data_append] at ih ⊢
          rw [← ih]
          rfl

theorem joinSegs_splitSlash (s : String) : joinSegs (splitSlash s) = s := by
  apply String.ext
  unfold splitSlash
  rw [joinSplit_data]

/-! ### Stable sort facts -/

theorem mem_insSorted (le : α → α → Bool) (a x : α) (l : List α) :
    x ∈ insSorted le a l ↔ x = a ∨ x ∈ l := by
  induction l with
  | nil => simp [insSorted]
  | cons b bs ih =>
    simp only [insSorted]
    split
    · simp
    · simp only [List.mem_cons, ih]
      tauto

theorem insSorted_perm (le : α → α → Bool) (a : α) (l : List α) :
    List.Perm (insSorted le a l) (a :: l) := by
  induction l with
  | nil => simp [insSorted]
  | cons b bs ih =>
    simp only [insSorted]
    split
    · exact List.Perm.refl _
    · exact (ih.cons b).trans (List.Perm.swap a b bs)

theorem stableSort_perm (le : α → α → Bool) (l : List α) :
    List.Perm (stableSort le l) l := by
  induction l with
  | nil => exact List.Perm.refl _
  | cons a as ih =>
    exact (insSorted_perm le a (stableSort le as)).trans (ih.cons a)

theorem mem_stableSort (le : α → α → Bool) (x : α) (l : List α) :
    x ∈ stableSort le l ↔ x ∈ l :=
  (stableSort_perm le l).mem_iff

theorem pairwise_insSorted (le : α → α → Bool)
    (htrans : ∀ {x y z : α}, le x y = true → le y z = true → le x z = true)
    (htotal : ∀ x y : α, le x y = true ∨ le y x = true)
    (a : α) (l : List α) (h : l.Pairwise (fun x y => le x y = true)) :
    (insSorted le a l).Pairwise (fun x y => le x y = true) := by
  induction l with
  | nil => simp [insSorted]
  | cons b bs ih =>
    rw [List.pairwise_cons] at h
    simp only [insSorted]
    split
    · rename_i hab
      rw [List.pairwise_cons]
      refine ⟨?_, List.pairwise_cons.2 h⟩
      intro x hx
      rcases List.mem_cons.1 hx with hxb | hxs
      · exact hxb ▸ hab
      · exact htrans hab (h.1 x hxs)
    · rename_i hab
      have hba : le b a = true := by
        rcases htotal a b with h' | h'
        · exact absurd h' hab
        · exact h'
      rw [List.pairwise_cons]
      refine ⟨?_, ih h.2⟩
      intro x hx
      rcases (mem_insSorted le a x bs).1 hx with hxa | hxs
      · exact hxa ▸ hba
      · exact h.1 x hxs

theorem pairwise_stableSort (le : α → α → Bool)
    (htrans : ∀ {x y z : α}, le x y = true → le y z = true → le x z = true)
    (htotal : ∀ x y : α, le x y = true ∨ le y x = true)
    (l : List α) : (stableSort le l).Pairwise (fun x y => le x y = true) := by
  induction l with
  | nil => simp [stableSort]
  | cons a as ih =>
    exact pairwise_insSorted le htrans htotal a _ ih

theorem map_insSorted (le : α → α → Bool) (f : α → α)
    (hf : ∀ x y, le (f x) (f y) = le x y) (a : α) (l : List α) :
    (insSorted le a l).map f = insSorted le (f a) (l.map f) := by
  induction l with
  | nil => simp [insSorted]
  | cons b bs ih =>
    simp only [insSorted, List.map]
    rw [hf]
    split
    · simp [List.map]
    · simp [List.map, ih]

theorem map_stableSort (le : α → α → Bool) (f : α → α)
    (hf : ∀ x y, le (f x) (f y) = le x y) (l : List α) :
    (stableSort le l).map f = stableSort le (l.map f) := by
  induction l with
  | nil => simp [stableSort]
  | cons a as ih =>
    simp only [stableSort, List.map]
    rw [map_insSorted le f hf, ih]

theorem name_withChildren (n : FileNode) (cs : List FileNode) :
    (n.withChildren cs).name = n.name := by
  cases n
  rfl

theorem ntype_withChildren (n : FileNode) (cs : List FileNode) :
    (n.withChildren cs).ntype = n.ntype := by
  cases n
  rfl

theorem path_withChildren (n : FileNode) (cs : List FileNode) :
    (n.withChildren cs).path = n.path := by
  cases n
  rfl

theorem children_withChildren (n : FileNode) (cs : List FileNode) :
    (n.withChildren cs).children = cs := by
  cases n
  rfl

theorem nodeLE_withChildren (a b : FileNode) (cs ds : List FileNode) :
    nodeLE (a.withChildren cs) (b.withChildren ds) = nodeLE a b := by
  unfold nodeLE nodeCmp
  rw [name_withChildren, name_withChildren, ntype_withChildren, ntype_withChildren]

theorem sortChildren_eq_map (l : List FileNode) :
    sortChildren l = l.map (fun n => n.withChildren (sortTree n.children)) := by
  induction l with
  | nil => simp [sortChildren]
  | cons n rest ih =>
    cases n with
    | mk nm p t cs =>
      simp only [sortChildren, List.map, ih, sortTree]
      rfl

/-- The source's orientation of `sortTree`: sort the level with the
`localeCompare`-based comparator, then map the recursive sort over the sorted
nodes' children. -/
theorem sortTree_eq_source (nodes : List FileNode) :
    sortTree nodes = (stableSort nodeLE nodes).map (fun n => n.withChildren (sortTree n.children)) := by
  rw [map_stableSort nodeLE _ (fun x y => nodeLE_withChildren x y _ _) nodes]
  rw [← sortChildren_eq_map]
  rfl

/-! ### Facts about `findSplit`, `findNode` and `forestSegs` -/

theorem findSplit_eq_none_iff (p : String) (lvl : List FileNode) :
    findSplit p lvl = none ↔ ∀ n ∈ lvl, n.name ≠ p := by
  induction lvl with
  | nil => simp [findSplit]
  | cons n ns ih =>
    simp only [findSplit]
    split
    · rename_i h
      simp [h]
    · rename_i h
      cases hfs : findSplit p ns with
      | some x =>
        obtain ⟨a, b, c⟩ := x
        constructor
        · intro hx
          simp at hx
        · intro hall
          rw [List.forall_mem_cons] at hall
          have h2 := ih.2 hall.2
          rw [hfs] at h2
          simp at h2
      | none =>
        simp only [List.forall_mem_cons]
        constructor
        · intro _
          exact ⟨h, ih.1 hfs⟩
        · intro _
          trivial

theorem findSplit_eq_some {p : String} {lvl l1 : List FileNode} {n : FileNode}
    {l2 : List FileNode} (h : findSplit p lvl = some (l1, n, l2)) :
    lvl = l1 ++ n :: l2 ∧ n.name = p := by
  induction lvl generalizing l1 with
  | nil => simp [findSplit] at h
  | cons m ms ih =>
    simp only [findSplit] at h
    split at h
    · rename_i hm
      simp only [Option.some.injEq, Prod.mk.injEq] at h
      obtain ⟨ha, hb, hc⟩ := h
      subst ha
      subst hb
      subst hc
      exact ⟨rfl, hm⟩
    · cases hfs : findSplit p ms with
      | some x =>
        obtain ⟨a1, b1, c1⟩ := x
        rw [hfs] at h
        simp only [Option.some.injEq, Prod.mk.injEq] at h
        obtain ⟨ha, hb, hc⟩ := h
        obtain ⟨hd, he⟩ := ih (hb ▸ hc ▸ hfs)
        subst ha
        subst hd
        exact ⟨by simp, he⟩
      | none => rw [hfs] at h; exact absurd h (by simp)

theorem findNode_of_findSplit_some {p : String} {lvl l1 : List FileNode} {n : FileNode}
    {l2 : List FileNode} (h : findSplit p lvl = some (l1, n, l2)) :
    findNode p lvl = some n := by
  induction lvl generalizing l1 with
  | nil => simp [findSplit] at h
  | cons m ms ih =>
    simp only [findSplit] at h
    simp only [findNode]
    split at h
    · rename_i hm
      rw [if_pos hm]
      simp only [Option.some.injEq, Prod.mk.injEq] at h
      rw [h.2.1]
    · rename_i hm
      rw [if_neg hm]
      cases hfs : findSplit p ms with
      | some x =>
        obtain ⟨a1, b1, c1⟩ := x
        rw [hfs] at h
        simp only [Option.some.injEq, Prod.mk.injEq] at h
        obtain ⟨-, hb, hc⟩ := h
        exact ih (hb ▸ hc ▸ hfs)
      | none => rw [hfs] at h; exact absurd h (by simp)

theorem findNode_of_findSplit_none {p : String} {lvl : List FileNode}
    (h : findSplit p lvl = none) : findNode p lvl = none := by
  induction lvl with
  | nil => simp [findNode]
  | cons m ms ih =>
    simp only [findSplit] at h
    simp only [findNode]
    split at h
    · exact absurd h (by simp)
    · rename_i hm
      rw [if_neg hm]
      cases hfs : findSplit p ms with
      | some x => rw [hfs] at h; obtain ⟨a, b, c⟩ := x; exact absurd h (by simp)
      | none => exact ih hfs

theorem findNode_eq_none_iff (p : String) (lvl : List FileNode) :
    findNode p lvl = none ↔ ∀ n ∈ lvl, n.name ≠ p := by
  induction lvl with
  | nil => simp [findNode]
  | cons n ns ih =>
    simp only [findNode]
    split
    · rename_i h
      simp [h]
    · rename_i h
      rw [ih]
      simp [List.forall_mem_cons, h]

theorem findNode_append_some {p : String} {l1 : List FileNode} {n : FileNode}
    (l2 : List FileNode) (h : findNode p l1 = some n) :
    findNode p (l1 ++ l2) = some n := by
  induction l1 with
  | nil => simp [findNode] at h
  | cons m ms ih =>
    simp only [findNode] at h
    rw [List.cons_append]
    simp only [findNode]
    split at h
    · rename_i hm
      rw [if_pos hm]
      exact h
    · rename_i hm
      rw [if_neg hm]
      exact ih h

theorem findNode_append_none {p : String} {l1 : List FileNode}
    (l2 : List FileNode) (h : findNode p l1 = none) :
    findNode p (l1 ++ l2) = findNode p l2 := by
  induction l1 with
  | nil => simp
  | cons m ms ih =>
    simp only [findNode] at h
    split at h
    · exact absurd h (by simp)
    · rename_i hm
      rw [List.cons_append]
      simp only [findNode]
      rw [if_neg hm]
      exact ih h

theorem forestSegs_nil : forestSegs [] = [] := by
  simp [forestSegs]

theorem forestSegs_append (xs ys : List FileNode) :
    forestSegs (xs ++ ys) = forestSegs xs ++ forestSegs ys := by
  induction xs with
  | nil => simp [forestSegs]
  | cons x rest ih =>
    cases x with
    | mk nm p t cs =>
      rw [List.cons_append]
      simp only [forestSegs]
      rw [ih]
      simp [List.append_assoc]

theorem forestSegs_cons (n : FileNode) (ns : List FileNode) :
    forestSegs (n :: ns) = forestSegs [n] ++ forestSegs ns := by
  have h : n :: ns = [n] ++ ns := rfl
  rw [h, forestSegs_append]

theorem mem_forestSegs_single (nm pp : String) (t : NodeType) (cs : List FileNode)
    (σ : List String) :
    σ ∈ forestSegs [FileNode.mk nm pp t cs] ↔
      (t = NodeType.file ∧ σ = [nm]) ∨ ∃ τ ∈ forestSegs cs, σ = nm :: τ := by
  cases t <;>
    simp [forestSegs, List.mem_append, List.mem_map, eq_comm]

theorem folderAt_nil (σ : List String) : folderAt σ [] = false := by
  match σ with
  | [] => simp [folderAt]
  | [p] => simp [folderAt, findNode]
  | p :: q :: rest => simp [folderAt, findNode]

/-! ### How one insertion changes the forest -/

theorem mem_forestSegs_ins (pre parts : List String) (lvl : List FileNode) :
    ∀ σ ∈ forestSegs lvl, σ ∈ forestSegs (ins pre parts lvl) := by
  induction parts generalizing pre lvl with
  | nil =>
    intro σ h
    simpa [ins] using h
  | cons p tail ih =>
    intro σ h
    cases tail with
    | nil =>
      simp only [ins]
      cases hfs : findSplit p lvl with
      | some x => exact h
      | none =>
        rw [forestSegs_append]
        exact List.mem_append_left _ h
    | cons q rest =>
      simp only [ins]
      cases hfs : findSplit p lvl with
      | some x =>
        obtain ⟨l1, n, l2⟩ := x
        obtain ⟨hdec, hname⟩ := findSplit_eq_some hfs
        subst hdec
        rw [forestSegs_append] at h
        rw [forestSegs_cons] at h
        rw [forestSegs_append, forestSegs_append]
        rcases List.mem_append.1 h with h1 | hmid
        · exact List.mem_append_left _ (List.mem_append_left _ h1)
        rcases List.mem_append.1 hmid with hm | h2
        · apply List.mem_append_left
          apply List.mem_append_right
          cases n with
          | mk nm npath t cs =>
            rw [mem_forestSegs_single] at hm
            show σ ∈ forestSegs [FileNode.withChildren (FileNode.mk nm npath t cs) _]
            rw [show FileNode.withChildren (FileNode.mk nm npath t cs)
                (ins (pre ++ [p]) (q :: rest) (FileNode.children (FileNode.mk nm npath t cs)))
              = FileNode.mk nm npath t (ins (pre ++ [p]) (q :: rest) cs) from rfl]
            rw [mem_forestSegs_single]
            rcases hm with ⟨ht, hσ⟩ | ⟨τ, hτ, hσ⟩
            · exact Or.inl ⟨ht, hσ⟩
            · exact Or.inr ⟨τ, ih (pre ++ [p]) cs τ hτ, hσ⟩
        · exact List.mem_append_right _ h2
      | none =>
        rw [forestSegs_append]
        exact List.mem_append_left _ h

theorem self_mem_forestSegs_ins (pre : List String) (parts : List String) (lvl : List FileNode)
    (hne : parts ≠ []) (hf : folderAt parts lvl = false) :
    parts ∈ forestSegs (ins pre parts lvl) := by
  induction parts generalizing pre lvl with
  | nil => exact absurd rfl hne
  | cons p tail ih =>
    cases tail with
    | nil =>
      simp only [ins]
      cases hfs : findSplit p lvl with
      | some x =>
        obtain ⟨l1, n, l2⟩ := x
        obtain ⟨hdec, hname⟩ := findSplit_eq_some hfs
        simp only [folderAt, findNode_of_findSplit_some hfs] at hf
        have hfile : n.ntype = NodeType.file := by
          cases hnt : n.ntype
          · rfl
          · rw [hnt] at hf
            simp at hf
        subst hdec
        rw [forestSegs_append, forestSegs_cons]
        apply List.mem_append_right
        apply List.mem_append_left
        cases n with
        | mk nm npath t cs =>
          rw [mem_forestSegs_single]
          simp only [FileNode.name] at hname
          simp only [FileNode.ntype] at hfile
          exact Or.inl ⟨hfile, by rw [hname]⟩
      | none =>
        rw [forestSegs_append]
        apply List.mem_append_right
        rw [mem_forestSegs_single]
        exact Or.inl ⟨rfl, rfl⟩
    | cons q rest =>
      simp only [ins]
      cases hfs : findSplit p lvl with
      | some x =>
        obtain ⟨l1, n, l2⟩ := x
        obtain ⟨hdec, hname⟩ := findSplit_eq_some hfs
        simp only [folderAt, findNode_of_findSplit_some hfs] at hf
        have hsub := ih (pre ++ [p]) n.children (by simp) hf
        rw [forestSegs_append, forestSegs_append]
        apply List.mem_append_left
        apply List.mem_append_right
        cases n with
        | mk nm npath t cs =>
          show (p :: q :: rest) ∈ forestSegs [FileNode.mk nm npath t
            (ins (pre ++ [p]) (q :: rest) cs)]
          rw [mem_forestSegs_single]
          simp only [FileNode.name] at hname
          simp only [FileNode.children] at hsub
          exact Or.inr ⟨q :: rest, hsub, by rw [hname]⟩
      | none =>
        have hsub := ih (pre ++ [p]) [] (by simp) (folderAt_nil _)
        rw [forestSegs_append]
        apply List.mem_append_right
        rw [mem_forestSegs_single]
        exact Or.inr ⟨q :: rest, hsub, rfl⟩

theorem mem_forestSegs_ins_inv (pre parts : List String) (lvl : List FileNode) :
    ∀ σ ∈ forestSegs (ins pre parts lvl), σ ∈ forestSegs lvl ∨ σ = parts := by
  induction parts generalizing pre lvl with
  | nil =>
    intro σ h
    exact Or.inl (by simpa [ins] using h)
  | cons p tail ih =>
    intro σ h
    cases tail with
    | nil =>
      simp only [ins] at h
      cases hfs : findSplit p lvl with
      | some x =>
        rw [hfs] at h
        exact Or.inl h
      | none =>
        rw [hfs] at h
        rw [forestSegs_append] at h
        rcases List.mem_append.1 h with h1 | h2
        · exact Or.inl h1
        · rw [mem_forestSegs_single] at h2
          rcases h2 with ⟨-, hσ⟩ | ⟨τ, hτ, hσ⟩
          · exact Or.inr hσ
          · rw [forestSegs_nil] at hτ
            exact absurd hτ (by simp)
    | cons q rest =>
      simp only [ins] at h
      cases hfs : findSplit p lvl with
      | some x =>
        obtain ⟨l1, n, l2⟩ := x
        rw [hfs] at h
        obtain ⟨hdec, hname⟩ := findSplit_eq_some hfs
        rw [forestSegs_append, forestSegs_append] at h
        rcases List.mem_append.1 h with h12 | h2
        · rcases List.mem_append.1 h12 with h1 | hmid
          · refine Or.inl ?_
            rw [hdec, forestSegs_append, forestSegs_cons]
            exact List.mem_append_left _ h1
          · cases n with
            | mk nm npath t cs =>
              simp only [FileNode.withChildren, FileNode.children] at hmid
              rw [mem_forestSegs_single] at hmid
              rcases hmid with ⟨ht, hσ⟩ | ⟨τ, hτ, hσ⟩
              · refine Or.inl ?_
                rw [hdec, forestSegs_append, forestSegs_cons]
                apply List.mem_append_right
                apply List.mem_append_left
                rw [mem_forestSegs_single]
                exact Or.inl ⟨ht, hσ⟩
              · rcases ih (pre ++ [p]) cs τ hτ with hold | hnew
                · refine Or.inl ?_
                  rw [hdec, forestSegs_append, forestSegs_cons]
                  apply List.mem_append_right
                  apply List.mem_append_left
                  rw [mem_forestSegs_single]
                  exact Or.inr ⟨τ, hold, hσ⟩
                · refine Or.inr ?_
                  rw [hσ, hnew]
                  simp only [FileNode.name] at hname
                  rw [hname]
        · refine Or.inl ?_
          rw [hdec, forestSegs_append, forestSegs_cons]
          exact List.mem_append_right _ (List.mem_append_right _ h2)
      | none =>
        rw [hfs] at h
        rw [forestSegs_append] at h
        rcases List.mem_append.1 h with h1 | h2
        · exact Or.inl h1
        · rw [mem_forestSegs_single] at h2
          rcases h2 with ⟨ht, -⟩ | ⟨τ, hτ, hσ⟩
          · exact absurd ht (by simp)
          · rcases ih (pre ++ [p]) [] τ hτ with hold | hnew
            · rw [forestSegs_nil] at hold
              exact absurd hold (by simp)
            · exact Or.inr (by rw [hσ, hnew])

theorem folderAt_ins (pre parts : List String) (lvl : List FileNode) :
    ∀ σ, folderAt σ (ins pre parts lvl) = true →
      folderAt σ lvl = true ∨ (σ ≠ [] ∧ σ <+: parts ∧ σ ≠ parts) := by
  induction parts generalizing pre lvl with
  | nil =>
    intro σ h
    exact Or.inl (by simpa [ins] using h)
  | cons p tail ih =>
    intro σ h
    cases tail with
    | nil =>
      cases hfs : findSplit p lvl with
      | some x =>
        simp only [ins, hfs] at h
        exact Or.inl h
      | none =>
        simp only [ins, hfs] at h
        rcases σ with _ | ⟨r, τ⟩
        · simp [folderAt] at h
        · rcases τ with _ | ⟨q2, rest2⟩
          · simp only [folderAt] at h ⊢
            cases hfn : findNode r lvl with
            | some m =>
              rw [findNode_append_some _ hfn] at h
              exact Or.inl h
            | none =>
              rw [findNode_append_none _ hfn] at h
              by_cases hr : p = r
              · subst hr
                simp [findNode, FileNode.name, FileNode.ntype] at h
              · simp [findNode, FileNode.name, hr] at h
          · simp only [folderAt] at h ⊢
            cases hfn : findNode r lvl with
            | some m =>
              rw [findNode_append_some _ hfn] at h
              exact Or.inl h
            | none =>
              rw [findNode_append_none _ hfn] at h
              by_cases hr : p = r
              · subst hr
                simp [findNode, FileNode.name, FileNode.children, folderAt_nil] at h
              · simp [findNode, FileNode.name, hr] at h
    | cons q rest =>
      cases hfs : findSplit p lvl with
      | some x =>
        obtain ⟨l1, n, l2⟩ := x
        obtain ⟨hdec, hname⟩ := findSplit_eq_some hfs
        cases n with
        | mk nm npath t cs =>
          simp only [ins, hfs, FileNode.withChildren, FileNode.children] at h
          rw [List.append_assoc] at h
          simp only [FileNode.name] at hname
          subst hdec
          rcases σ with _ | ⟨r, τ⟩
          · simp [folderAt] at h
          · rcases τ with _ | ⟨q2, rest2⟩
            · simp only [folderAt] at h ⊢
              cases hfn : findNode r l1 with
              | some m =>
                rw [findNode_append_some _ hfn] at h
                rw [findNode_append_some (FileNode.mk nm npath t cs :: l2) hfn]
                exact Or.inl h
              | none =>
                rw [findNode_append_none _ hfn] at h
                rw [findNode_append_none (FileNode.mk nm npath t cs :: l2) hfn]
                simp only [List.singleton_append, findNode, FileNode.name] at h ⊢
                by_cases hr : nm = r
                · rw [if_pos hr] at h ⊢
                  simp only [FileNode.ntype] at h ⊢
                  exact Or.inl h
                · rw [if_neg hr] at h ⊢
                  exact Or.inl h
            · simp only [folderAt] at h ⊢
              cases hfn : findNode r l1 with
              | some m =>
                rw [findNode_append_some _ hfn] at h
                rw [findNode_append_some (FileNode.mk nm npath t cs :: l2) hfn]
                exact Or.inl h
              | none =>
                rw [findNode_append_none _ hfn] at h
                rw [findNode_append_none (FileNode.mk nm npath t cs :: l2) hfn]
                simp only [List.singleton_append, findNode, FileNode.name] at h ⊢
                by_cases hr : nm = r
                · rw [if_pos hr] at h ⊢
                  simp only [FileNode.children] at h ⊢
                  rcases ih (pre ++ [p]) cs (q2 :: rest2) h with hold | ⟨-, hpfx, hneq⟩
                  · exact Or.inl hold
                  · have hrp : r = p := by rw [← hr, hname]
                    refine Or.inr ⟨by simp, ?_, ?_⟩
                    · rw [hrp]
                      exact List.cons_prefix_cons.2 ⟨rfl, hpfx⟩
                    · simp only [ne_eq, List.cons.injEq, not_and]
                      intro _ h1 h2
                      exact hneq (by rw [h1, h2])
                · rw [if_neg hr] at h ⊢
                  exact Or.inl h
      | none =>
        simp only [ins, hfs] at h
        rcases σ with _ | ⟨r, τ⟩
        · simp [folderAt] at h
        · rcases τ with _ | ⟨q2, rest2⟩
          · simp only [folderAt] at h ⊢
            cases hfn : findNode r lvl with
            | some m =>
              rw [findNode_append_some _ hfn] at h
              exact Or.inl h
            | none =>
              rw [findNode_append_none _ hfn] at h
              by_cases hr : p = r
              · refine Or.inr ⟨by simp, ?_, by simp⟩
                rw [← hr]
                exact List.cons_prefix_cons.2 ⟨rfl, List.nil_prefix⟩
              · simp [findNode, FileNode.name, hr] at h
          · simp only [folderAt] at h ⊢
            cases hfn : findNode r lvl with
            | some m =>
              rw [findNode_append_some _ hfn] at h
              exact Or.inl h
            | none =>
              rw [findNode_append_none _ hfn] at h
              by_cases hr : p = r
              · subst hr
                simp only [findNode, FileNode.name, if_pos rfl, FileNode.children] at h
                rcases ih (pre ++ [p]) [] (q2 :: rest2) h with hold | ⟨-, hpfx, hneq⟩
                · rw [folderAt_nil] at hold
                  simp at hold
                · refine Or.inr ⟨by simp, ?_, ?_⟩
                  · exact List.cons_prefix_cons.2 ⟨rfl, hpfx⟩
                  · simp only [ne_eq, List.cons.injEq, not_and]
                    intro _ h1 h2
                    exact hneq (by rw [h1, h2])
              · simp [findNode, FileNode.name, hr] at h

/-! ### Accumulating all paths -/

theorem insAll_cons (acc : List FileNode) (p : String) (P : List String) :
    insAll acc (p :: P) = insAll (ins [] (splitSlash p) acc) P := rfl

theorem mem_forestSegs_insAll (acc : List FileNode) (P : List String) :
    ∀ σ ∈ forestSegs acc, σ ∈ forestSegs (insAll acc P) := by
  induction P generalizing acc with
  | nil =>
    intro σ h
    simpa [insAll] using h
  | cons p P ih =>
    intro σ h
    rw [insAll_cons]
    exact ih _ σ (mem_forestSegs_ins [] (splitSlash p) acc σ h)

theorem insAll_sound (acc : List FileNode) (P : List String) :
    ∀ σ ∈ forestSegs (insAll acc P), σ ∈ forestSegs acc ∨ ∃ p ∈ P, σ = splitSlash p := by
  induction P generalizing acc with
  | nil =>
    intro σ h
    exact Or.inl (by simpa [insAll] using h)
  | cons p P ih =>
    intro σ h
    rw [insAll_cons] at h
    rcases ih (ins [] (splitSlash p) acc) σ h with hacc | ⟨q, hq, hσ⟩
    · rcases mem_forestSegs_ins_inv [] (splitSlash p) acc σ hacc with h3 | h3
      · exact Or.inl h3
      · exact Or.inr ⟨p, by simp, h3⟩
    · exact Or.inr ⟨q, by simp [hq], hσ⟩

theorem insAll_complete (U : List String)
    (hpf : ∀ p ∈ U, ∀ q ∈ U, splitSlash p <+: splitSlash q → splitSlash p = splitSlash q) :
    ∀ (P : List String) (acc : List FileNode),
      (∀ p ∈ P, p ∈ U) →
      (∀ σ, folderAt σ acc = true → ∃ u ∈ U, σ ≠ [] ∧ σ <+: splitSlash u ∧ σ ≠ splitSlash u) →
      ∀ p ∈ P, splitSlash p ∈ forestSegs (insAll acc P) := by
  intro P
  induction P with
  | nil =>
    intro acc _ _ p hp
    simp at hp
  | cons p0 P ih =>
    intro acc hPU hacc p hp
    have hstep : ∀ σ, folderAt σ (ins [] (splitSlash p0) acc) = true →
        ∃ u ∈ U, σ ≠ [] ∧ σ <+: splitSlash u ∧ σ ≠ splitSlash u := by
      intro σ hσ
      rcases folderAt_ins [] (splitSlash p0) acc σ hσ with hold | ⟨hne, hpfx, hneq⟩
      · exact hacc σ hold
      · exact ⟨p0, hPU p0 (by simp), hne, hpfx, hneq⟩
    rcases List.mem_cons.1 hp with hp0 | hpP
    · subst hp0
      have hins : splitSlash p ∈ forestSegs (ins [] (splitSlash p) acc) := by
        cases hfold : folderAt (splitSlash p) acc with
        | false => exact self_mem_forestSegs_ins [] (splitSlash p) acc (splitSlash_ne_nil p) hfold
        | true =>
          exfalso
          rcases hacc _ hfold with ⟨u, hu, -, hpfx, hneq⟩
          exact hneq (hpf p (hPU p (by simp)) u hu hpfx)
      rw [insAll_cons]
      exact mem_forestSegs_insAll _ P _ hins
    · rw [insAll_cons]
      exact ih (ins [] (splitSlash p0) acc) (fun q hq => hPU q (by simp [hq])) hstep p hpP

/-! ### Sorting does not change the set of file paths -/

theorem mem_forestSegs_iff (f : List FileNode) (σ : List String) :
    σ ∈ forestSegs f ↔ ∃ n ∈ f, σ ∈ forestSegs [n] := by
  induction f with
  | nil => simp [forestSegs_nil]
  | cons x xs ih =>
    rw [forestSegs_cons, List.mem_append, ih]
    constructor
    · intro h
      rcases h with h1 | ⟨n, hn, h2⟩
      · exact ⟨x, by simp, h1⟩
      · exact ⟨n, by simp [hn], h2⟩
    · rintro ⟨n, hn, h2⟩
      rcases List.mem_cons.1 hn with rfl | hn2
      · exact Or.inl h2
      · exact Or.inr ⟨n, hn2, h2⟩

theorem forestSegs_perm_mem {f g : List FileNode} (hp : List.Perm f g) :
    ∀ σ, σ ∈ forestSegs f ↔ σ ∈ forestSegs g := by
  intro σ
  rw [mem_forestSegs_iff, mem_forestSegs_iff]
  constructor
  · rintro ⟨n, hn, h2⟩
    exact ⟨n, hp.mem_iff.1 hn, h2⟩
  · rintro ⟨n, hn, h2⟩
    exact ⟨n, hp.mem_iff.2 hn, h2⟩

theorem mem_forestSegs_sortChildren_aux (k : Nat) :
    ∀ (f : List FileNode), sizeOf f < k →
      ∀ σ, (σ ∈ forestSegs (sortChildren f) ↔ σ ∈ forestSegs f) := by
  induction k with
  | zero =>
    intro f h
    omega
  | succ k ih =>
    intro f hf σ
    cases f with
    | nil => simp [sortChildren]
    | cons n rest =>
      cases n with
      | mk nm npath t cs =>
        have hcs : sizeOf cs < k := by
          simp only [List.cons.sizeOf_spec, FileNode.mk.sizeOf_spec] at hf
          omega
        have hrest : sizeOf rest < k := by
          simp only [List.cons.sizeOf_spec, FileNode.mk.sizeOf_spec] at hf
          omega
        simp only [sortChildren]
        rw [forestSegs_cons, forestSegs_cons (FileNode.mk nm npath t cs) rest]
        simp only [List.mem_append]
        have hhead : σ ∈ forestSegs [FileNode.mk nm npath t (stableSort nodeLE (sortChildren cs))]
            ↔ σ ∈ forestSegs [FileNode.mk nm npath t cs] := by
          rw [mem_forestSegs_single, mem_forestSegs_single]
          constructor
          · rintro (⟨ht, hσ⟩ | ⟨τ, hτ, hσ⟩)
            · exact Or.inl ⟨ht, hσ⟩
            · rw [forestSegs_perm_mem (stableSort_perm nodeLE (sortChildren cs)) τ] at hτ
              rw [ih cs hcs τ] at hτ
              exact Or.inr ⟨τ, hτ, hσ⟩
          · rintro (⟨ht, hσ⟩ | ⟨τ, hτ, hσ⟩)
            · exact Or.inl ⟨ht, hσ⟩
            · refine Or.inr ⟨τ, ?_, hσ⟩
              rw [forestSegs_perm_mem (stableSort_perm nodeLE (sortChildren cs)) τ]
              rw [ih cs hcs τ]
              exact hτ
        rw [hhead, ih rest hrest σ]

theorem mem_forestSegs_sortTree (f : List FileNode) (σ : List String) :
    σ ∈ forestSegs (sortTree f) ↔ σ ∈ forestSegs f := by
  show σ ∈ forestSegs (stableSort nodeLE (sortChildren f)) ↔ σ ∈ forestSegs f
  rw [forestSegs_perm_mem (stableSort_perm nodeLE (sortChildren f)) σ]
  exact mem_forestSegs_sortChildren_aux (sizeOf f + 1) f (by omega) σ

/-! ### Claim C1 -/

/-- C1: for every set of well-formed `/`-separated paths in which no path is
both a file and a prefix of another path (segment-wise), the leaf (file)
nodes of the tree produced by `buildTree`, with their paths reconstructed by
joining ancestor names with `/`, are exactly the input set; and building the
tree twice from the same input yields structurally identical trees
(determinism of the pure builder). -/
theorem c1_buildTree_leaves (paths : List String)
    (hwf : ∀ p ∈ paths, "" ∉ splitSlash p)
    (hpf : ∀ p ∈ paths, ∀ q ∈ paths, splitSlash p <+: splitSlash q → p = q) :
    (∀ s, s ∈ leafPaths (buildTree paths) ↔ s ∈ paths)
      ∧ buildTree paths = buildTree paths := by
  refine ⟨?_, rfl⟩
  intro s
  unfold buildTree leafPaths
  constructor
  · intro hs
    rw [List.mem_map] at hs
    obtain ⟨σ, hσ, hjoin⟩ := hs
    rw [mem_forestSegs_sortTree] at hσ
    rcases insAll_sound [] paths σ hσ with h0 | ⟨p, hp, hσp⟩
    · rw [forestSegs_nil] at h0
      simp at h0
    · rw [← hjoin, hσp, joinSegs_splitSlash]
      exact hp
  · intro hs
    rw [List.mem_map]
    refine ⟨splitSlash s, ?_, joinSegs_splitSlash s⟩
    rw [mem_forestSegs_sortTree]
    exact insAll_complete paths
      (fun p hp q hq hpq => by rw [hpf p hp q hq hpq]) paths []
      (fun p hp => hp)
      (fun σ hσ => by rw [folderAt_nil] at hσ; simp at hσ)
      s hs

/-- Witness for C1 at the concrete path set `["src/main.py", "README.md"]`. -/
theorem c1_buildTree_leaves_witness :
    ((∀ p ∈ ["src/main.py", "README.md"], "" ∉ splitSlash p)
        ∧ (∀ p ∈ ["src/main.py", "README.md"], ∀ q ∈ ["src/main.py", "README.md"],
            splitSlash p <+: splitSlash q → p = q))
      ∧ (∀ s, s ∈ leafPaths (buildTree ["src/main.py", "README.md"])
          ↔ s ∈ ["src/main.py", "README.md"]) := by
  refine ⟨⟨by decide, by decide⟩, ?_⟩
  exact (c1_buildTree_leaves ["src/main.py", "README.md"] (by decide) (by decide)).1

/-! ### Invariant characterizations -/

theorem eachNodup_iff (f : List FileNode) : eachNodup f ↔ ∀ n ∈ f, nodupNode n := by
  induction f with
  | nil => simp [eachNodup]
  | cons n ns ih => simp [eachNodup, ih, List.forall_mem_cons]

theorem nodupNode_mk (nm p : String) (t : NodeType) (cs : List FileNode) :
    nodupNode (FileNode.mk nm p t cs) ↔ treeNodup cs := by
  simp [nodupNode, treeNodup]

theorem treeNodup_nil : treeNodup [] := by
  constructor
  · simp [namesOf]
  · simp [eachNodup]

theorem eachOrdered_iff (f : List FileNode) : eachOrdered f ↔ ∀ n ∈ f, orderedNode n := by
  induction f with
  | nil => simp [eachOrdered]
  | cons n ns ih => simp [eachOrdered, ih, List.forall_mem_cons]

theorem orderedNode_mk (nm p : String) (t : NodeType) (cs : List FileNode) :
    orderedNode (FileNode.mk nm p t cs) ↔ treeOrdered cs := by
  simp [orderedNode, treeOrdered]

theorem eachPath_iff (anc : List String) (f : List FileNode) :
    eachPath anc f ↔ ∀ n ∈ f, pathNode anc n := by
  induction f with
  | nil => simp [eachPath]
  | cons n ns ih => simp [eachPath, ih, List.forall_mem_cons]

theorem pathNode_mk (anc : List String) (nm p : String) (t : NodeType) (cs : List FileNode) :
    pathNode anc (FileNode.mk nm p t cs)
      ↔ p = joinSegs (anc ++ [nm]) ∧ eachPath (anc ++ [nm]) cs := by
  simp [pathNode]

theorem namesOf_append (xs ys : List FileNode) :
    namesOf (xs ++ ys) = namesOf xs ++ namesOf ys := by
  simp [namesOf]

theorem mem_namesOf (p : String) (f : List FileNode) :
    p ∈ namesOf f ↔ ∃ n ∈ f, n.name = p := by
  simp [namesOf, List.mem_map]

/-! ### Insertion preserves the name and path invariants -/

theorem treeNodup_ins (pre parts : List String) (lvl : List FileNode) :
    treeNodup lvl → treeNodup (ins pre parts lvl) := by
  induction parts generalizing pre lvl with
  | nil =>
    intro h
    simpa [ins] using h
  | cons p tail ih =>
    intro h
    obtain ⟨hnames, heach⟩ := h
    cases tail with
    | nil =>
      cases hfs : findSplit p lvl with
      | some x =>
        simp only [ins, hfs]
        exact ⟨hnames, heach⟩
      | none =>
        have hp : p ∉ namesOf lvl := by
          rw [mem_namesOf]
          rintro ⟨n, hn, hname⟩
          exact (findSplit_eq_none_iff p lvl).1 hfs n hn hname
        simp only [ins, hfs]
        constructor
        · rw [namesOf_append]
          rw [List.nodup_append]
          refine ⟨hnames, by simp [namesOf], ?_⟩
          intro a ha
          simp only [namesOf, List.map, FileNode.name, List.mem_singleton]
          intro hq
          rw [hq] at ha
          exact hp ha
        · rw [eachNodup_iff]
          intro n hn
          rcases List.mem_append.1 hn with h1 | h2
          · exact (eachNodup_iff lvl).1 heach n h1
          · rw [List.mem_singleton] at h2
            subst h2
            rw [nodupNode_mk]
            exact treeNodup_nil
    | cons q rest =>
      cases hfs : findSplit p lvl with
      | some x =>
        obtain ⟨l1, n, l2⟩ := x
        obtain ⟨hdec, hname⟩ := findSplit_eq_some hfs
        cases n with
        | mk nm npath t cs =>
          subst hdec
          simp only [ins, hfs, FileNode.withChildren, FileNode.children]
          constructor
          · rw [namesOf_append, namesOf_append]
            rw [namesOf_append] at hnames
            simp only [namesOf, List.map, FileNode.name] at hnames ⊢
            rw [List.append_assoc, List.singleton_append]
            exact hnames
          · rw [eachNodup_iff] at heach ⊢
            intro m hm
            rcases List.mem_append.1 hm with h12 | h2
            · rcases List.mem_append.1 h12 with h1 | hmid
              · exact heach m (by simp [h1])
              · rw [List.mem_singleton] at hmid
                subst hmid
                rw [nodupNode_mk]
                have hcs : treeNodup cs := by
                  have := heach (FileNode.mk nm npath t cs) (by simp)
                  rwa [nodupNode_mk] at this
                exact ih (pre ++ [p]) cs hcs
            · exact heach m (by simp [h2])
      | none =>
        have hp : p ∉ namesOf lvl := by
          rw [mem_namesOf]
          rintro ⟨n, hn, hname⟩
          exact (findSplit_eq_none_iff p lvl).1 hfs n hn hname
        simp only [ins, hfs]
        constructor
        · rw [namesOf_append]
          rw [List.nodup_append]
          refine ⟨hnames, by simp [namesOf], ?_⟩
          intro a ha
          simp only [namesOf, List.map, FileNode.name, List.mem_singleton]
          intro hq
          rw [hq] at ha
          exact hp ha
        · rw [eachNodup_iff]
          intro m hm
          rcases List.mem_append.1 hm with h1 | h2
          · exact (eachNodup_iff lvl).1 heach m h1
          · rw [List.mem_singleton] at h2
            subst h2
            rw [nodupNode_mk]
            exact ih (pre ++ [p]) [] treeNodup_nil

theorem eachPath_append (anc : List String) (xs ys : List FileNode) :
    eachPath anc (xs ++ ys) ↔ eachPath anc xs ∧ eachPath anc ys := by
  rw [eachPath_iff, eachPath_iff, eachPath_iff]
  simp only [List.mem_append]
  constructor
  · intro h
    exact ⟨fun n hn => h n (Or.inl hn), fun n hn => h n (Or.inr hn)⟩
  · intro h n hn
    exact hn.elim (h.1 n) (h.2 n)

theorem eachPath_ins (pre parts : List String) (lvl : List FileNode) :
    eachPath pre lvl → eachPath pre (ins pre parts lvl) := by
  induction parts generalizing pre lvl with
  | nil =>
    intro h
    simpa [ins] using h
  | cons p tail ih =>
    intro h
    cases tail with
    | nil =>
      cases hfs : findSplit p lvl with
      | some x =>
        simp only [ins, hfs]
        exact h
      | none =>
        simp only [ins, hfs]
        rw [eachPath_append]
        refine ⟨h, ?_⟩
        rw [eachPath_iff]
        intro n hn
        rw [List.mem_singleton] at hn
        subst hn
        rw [pathNode_mk]
        exact ⟨rfl, by simp [eachPath]⟩
    | cons q rest =>
      cases hfs : findSplit p lvl with
      | some x =>
        obtain ⟨l1, n, l2⟩ := x
        obtain ⟨hdec, hname⟩ := findSplit_eq_some hfs
        cases n with
        | mk nm npath t cs =>
          subst hdec
          simp only [FileNode.name] at hname
          simp only [ins, hfs, FileNode.withChildren, FileNode.children]
          rw [List.append_assoc]
          rw [eachPath_append] at h ⊢
          obtain ⟨h1, h23⟩ := h
          rw [show (FileNode.mk nm npath t cs :: l2)
            = [FileNode.mk nm npath t cs] ++ l2 from rfl] at h23
          rw [eachPath_append] at h23
          obtain ⟨hmid, h2⟩ := h23
          refine ⟨h1, ?_⟩
          rw [eachPath_append]
          refine ⟨?_, h2⟩
          rw [eachPath_iff] at hmid ⊢
          intro m hm
          rw [List.mem_singleton] at hm
          subst hm
          have hold := hmid (FileNode.mk nm npath t cs) (by simp)
          rw [pathNode_mk] at hold ⊢
          refine ⟨hold.1, ?_⟩
          have := ih (pre ++ [nm]) cs hold.2
          rw [hname] at this ⊢
          exact this
      | none =>
        simp only [ins, hfs]
        rw [eachPath_append]
        refine ⟨h, ?_⟩
        rw [eachPath_iff]
        intro n hn
        rw [List.mem_singleton] at hn
        subst hn
        rw [pathNode_mk]
        exact ⟨rfl, ih (pre ++ [p]) [] (by simp [eachPath])⟩

theorem treeNodup_insAll (P : List String) : treeNodup (insAll [] P) := by
  have haux : ∀ (P : List String) (acc : List FileNode),
      treeNodup acc → treeNodup (insAll acc P) := by
    intro P
    induction P with
    | nil =>
      intro acc h
      simpa [insAll] using h
    | cons p P ih =>
      intro acc h
      rw [insAll_cons]
      exact ih _ (treeNodup_ins [] (splitSlash p) acc h)
  exact haux P [] treeNodup_nil

theorem eachPath_insAll (P : List String) : eachPath [] (insAll [] P) := by
  have haux : ∀ (P : List String) (acc : List FileNode),
      eachPath [] acc → eachPath [] (insAll acc P) := by
    intro P
    induction P with
    | nil =>
      intro acc h
      simpa [insAll] using h
    | cons p P ih =>
      intro acc h
      rw [insAll_cons]
      exact ih _ (eachPath_ins [] (splitSlash p) acc h)
  exact haux P [] (by simp [eachPath])

/-! ### Sorting preserves the invariants and establishes the order -/

theorem namesOf_sortChildren (f : List FileNode) : namesOf (sortChildren f) = namesOf f := by
  induction f with
  | nil => simp [sortChildren]
  | cons n rest ih =>
    cases n with
    | mk nm p t cs =>
      simp only [sortChildren, namesOf, List.map, FileNode.name] at ih ⊢
      rw [ih]

theorem sizeOf_children_lt {m : FileNode} {f : List FileNode} (hm : m ∈ f) :
    sizeOf m.children < sizeOf f := by
  have h1 := List.sizeOf_lt_of_mem hm
  cases m with
  | mk nm p t cs =>
    simp only [FileNode.mk.sizeOf_spec] at h1
    simp only [FileNode.children]
    omega

theorem treeNodup_sortTree_aux (k : Nat) :
    ∀ f, sizeOf f < k → treeNodup f → treeNodup (sortTree f) := by
  induction k with
  | zero =>
    intro f h
    omega
  | succ k ih =>
    intro f hf h
    obtain ⟨hnames, heach⟩ := h
    constructor
    · have hperm : List.Perm (stableSort nodeLE (sortChildren f)) (sortChildren f) :=
        stableSort_perm nodeLE (sortChildren f)
      have : namesOf (sortTree f) = List.map FileNode.name (stableSort nodeLE (sortChildren f)) := rfl
      rw [this]
      rw [(hperm.map FileNode.name).nodup_iff]
      rw [show List.map FileNode.name (sortChildren f) = namesOf (sortChildren f) from rfl]
      rw [namesOf_sortChildren]
      exact hnames
    · rw [eachNodup_iff]
      intro n hn
      have hn2 : n ∈ sortChildren f := (mem_stableSort nodeLE n (sortChildren f)).1 hn
      rw [sortChildren_eq_map, List.mem_map] at hn2
      obtain ⟨m, hm, hmn⟩ := hn2
      have hsize : sizeOf m.children < k := by
        have := sizeOf_children_lt hm
        omega
      have hmnodup : treeNodup m.children := by
        have := (eachNodup_iff f).1 heach m hm
        cases m with
        | mk nm p t cs =>
          rw [nodupNode_mk] at this
          simpa [FileNode.children] using this
      subst hmn
      cases m with
      | mk nm p t cs =>
        rw [show FileNode.withChildren (FileNode.mk nm p t cs)
          (sortTree (FileNode.children (FileNode.mk nm p t cs)))
          = FileNode.mk nm p t (sortTree cs) from rfl]
        rw [nodupNode_mk]
        exact ih cs (by simpa [FileNode.children] using hsize) (by simpa [FileNode.children] using hmnodup)

theorem eachPath_sortTree_aux (k : Nat) :
    ∀ f anc, sizeOf f < k → eachPath anc f → eachPath anc (sortTree f) := by
  induction k with
  | zero =>
    intro f anc h
    omega
  | succ k ih =>
    intro f anc hf h
    rw [eachPath_iff]
    intro n hn
    have hn2 : n ∈ sortChildren f := (mem_stableSort nodeLE n (sortChildren f)).1 hn
    rw [sortChildren_eq_map, List.mem_map] at hn2
    obtain ⟨m, hm, hmn⟩ := hn2
    have hsize : sizeOf m.children < k := by
      have := sizeOf_children_lt hm
      omega
    have hmpath := (eachPath_iff anc f).1 h m hm
    subst hmn
    cases m with
    | mk nm p t cs =>
      rw [show FileNode.withChildren (FileNode.mk nm p t cs)
        (sortTree (FileNode.children (FileNode.mk nm p t cs)))
        = FileNode.mk nm p t (sortTree cs) from rfl]
      rw [pathNode_mk] at hmpath ⊢
      refine ⟨hmpath.1, ?_⟩
      exact ih cs (anc ++ [nm]) (by simpa [FileNode.children] using hsize) hmpath.2

theorem treeOrdered_sortTree_aux (k : Nat) :
    ∀ f, sizeOf f < k → treeOrdered (sortTree f) := by
  induction k with
  | zero =>
    intro f h
    omega
  | succ k ih =>
    intro f hf
    constructor
    · have hpw := pairwise_stableSort nodeLE
        (fun hxy hyz => nodeLE_trans hxy hyz) nodeLE_total (sortChildren f)
      exact hpw.imp (fun hab => (siblingOrder_iff _ _).2 hab)
    · rw [eachOrdered_iff]
      intro n hn
      have hn2 : n ∈ sortChildren f := (mem_stableSort nodeLE n (sortChildren f)).1 hn
      rw [sortChildren_eq_map, List.mem_map] at hn2
      obtain ⟨m, hm, hmn⟩ := hn2
      have hsize : sizeOf m.children < k := by
        have := sizeOf_children_lt hm
        omega
      subst hmn
      cases m with
      | mk nm p t cs =>
        rw [show FileNode.withChildren (FileNode.mk nm p t cs)
          (sortTree (FileNode.children (FileNode.mk nm p t cs)))
          = FileNode.mk nm p t (sortTree cs) from rfl]
        rw [orderedNode_mk]
        exact ih cs (by simpa [FileNode.children] using hsize)

/-! ### Claim C2 -/

/-- C2 (amended): in every tree returned by `buildTree`, at every level
recursively, no two sibling nodes share a name; folders precede files and
nodes of the same kind are ordered by the case-aware `localeCompare` order on
their names (not by the plain code-point lexicographic order — see the
counterexample); and every node's `path` equals the `/`-join of its
ancestors' names plus its own name. -/
theorem c2_buildTree_invariants (paths : List String) :
    treeNodup (buildTree paths) ∧ treeOrdered (buildTree paths)
      ∧ treePaths [] (buildTree paths) := by
  refine ⟨?_, ?_, ?_⟩
  · exact treeNodup_sortTree_aux (sizeOf (insAll [] paths) + 1) _ (by omega)
      (treeNodup_insAll paths)
  · exact treeOrdered_sortTree_aux (sizeOf (insAll [] paths) + 1) _ (by omega)
  · exact eachPath_sortTree_aux (sizeOf (insAll [] paths) + 1) _ [] (by omega)
      (eachPath_insAll paths)

/-- Counterexample to C2 as stated: on input `["B", "a"]` the builder yields
two sibling file nodes ordered `["a", "B"]` (the case-insensitive
`localeCompare` order), although in the plain lexicographic code-point order
`"B"` precedes `"a"` — so nodes of the same kind are not ordered
lexicographically by name. -/
theorem c2_counterexample :
    namesOf (buildTree ["B", "a"]) = ["a", "B"]
      ∧ (buildTree ["B", "a"]).map FileNode.ntype = [NodeType.file, NodeType.file]
      ∧ "B".data < "a".data := by
  refine ⟨?_, ?_, by decide⟩ <;>
  · simp [buildTree, insAll, sortTree, sortChildren, splitSlash, splitChars, ins, findSplit,
      stableSort, insSorted, nodeLE, nodeCmp, localeCompare, lowerKey, caseKey, cmpList, natCmp,
      namesOf, FileNode.name, FileNode.ntype, joinSegs, Ordering.then]

/-! ### Claim C3 -/

/-- Counterexample to C3 as stated: `handleGenerate` clears the Diff Result
at entry (`setDiff(null)` before the request), so from a starting state
holding a Diff Result, a failed `generate` does not leave the Diff Result
exactly as it was — it is observed cleared afterwards. -/
theorem c3_counterexample :
    (handleGenerate
        ⟨none, [("main.py", "print(1)")], false, none, Mode.general, "",
          some [("main.py", "print(0)")],
          some ⟨[⟨"main.py", "modified"⟩], ⟨0, 1, 0⟩⟩⟩
        (FetchResult.ok (GenData.detail "boom"))).diff = none
      ∧ (some ⟨[⟨"main.py", "modified"⟩], ⟨0, 1, 0⟩⟩ : Option DiffResult) ≠ none := by
  exact ⟨rfl, by decide⟩

/-- C3 (amended): when a `generate` call fails (structured `detail` failure
or a thrown request error), the File Map, previous File Map, Specification,
mode and feedback text are exactly what they were before the call; the Diff
Result is cleared at entry (so it is empty after a failed call), the error
records the failure and the loading flag is cleared — no partial update of
the File Map is observable. -/
theorem c3_generate_failure_rollback (s : AppState) (r : FetchResult GenData)
    (h : genFails r) :
    (handleGenerate s r).files = s.files
      ∧ (handleGenerate s r).oldFiles = s.oldFiles
      ∧ (handleGenerate s r).cps = s.cps
      ∧ (handleGenerate s r).mode = s.mode
      ∧ (handleGenerate s r).feedback = s.feedback
      ∧ (handleGenerate s r).diff = none
      ∧ (handleGenerate s r).loading = false
      ∧ ∃ msg, (handleGenerate s r).error = some msg := by
  cases r with
  | thrown msg => exact ⟨rfl, rfl, rfl, rfl, rfl, rfl, rfl, msg, rfl⟩
  | ok d =>
    cases d with
    | detail dd => exact ⟨rfl, rfl, rfl, rfl, rfl, rfl, rfl, dd, rfl⟩
    | filesDiff fs df => exact h.elim
    | filesOnly fs => exact h.elim
    | bare fs => exact h.elim

/-- Witness for C3 (amended) at a concrete state and a thrown request. -/
theorem c3_generate_failure_rollback_witness :
    genFails (FetchResult.thrown "network error")
      ∧ ((handleGenerate ⟨none, [("a.py", "x")], false, none, Mode.general, "", none, none⟩
            (FetchResult.thrown "network error")).files = [("a.py", "x")]
          ∧ (handleGenerate ⟨none, [("a.py", "x")], false, none, Mode.general, "", none, none⟩
              (FetchResult.thrown "network error")).loading = false) := by
  refine ⟨trivial, ?_, ?_⟩
  · exact (c3_generate_failure_rollback
      ⟨none, [("a.py", "x")], false, none, Mode.general, "", none, none⟩
      (FetchResult.thrown "network error") trivial).1
  · exact (c3_generate_failure_rollback
      ⟨none, [("a.py", "x")], false, none, Mode.general, "", none, none⟩
      (FetchResult.thrown "network error") trivial).2.2.2.2.2.2.1

/-! ### Claim C4 -/

/-- C4: `generate` calls the first-generation endpoint with the
Specification alone when no previous File Map is held, and the regeneration
endpoint with the pair (Specification, previous File Map) when one is held;
the choice is determined solely by the presence of the previous File Map
(together with the Specification payload), with no other condition. -/
theorem c4_generate_request (s : AppState) :
    (s.oldFiles = none →
        generateRequest s = GenRequest.generate s.cps
          ∧ endpointOf (generateRequest s) = "/api/generate")
      ∧ (∀ m, s.oldFiles = some m →
          generateRequest s = GenRequest.regenerate s.cps m
            ∧ endpointOf (generateRequest s) = "/api/regenerate")
      ∧ (∀ t, s.oldFiles = t.oldFiles → s.cps = t.cps →
          generateRequest s = generateRequest t) := by
  refine ⟨?_, ?_, ?_⟩
  · intro h
    simp [generateRequest, h, endpointOf]
  · intro m h
    simp [generateRequest, h, endpointOf]
  · intro t h1 h2
    unfold generateRequest
    rw [h1, h2]

/-- Witness for C4 at a concrete state with no previous File Map. -/
theorem c4_generate_request_witness :
    (⟨none, [], false, none, Mode.general, "", none, none⟩ : AppState).oldFiles = none
      ∧ (generateRequest ⟨none, [], false, none, Mode.general, "", none, none⟩
            = GenRequest.generate none
          ∧ endpointOf (generateRequest ⟨none, [], false, none, Mode.general, "", none, none⟩)
            = "/api/generate") := by
  refine ⟨rfl, ?_⟩
  exact (c4_generate_request ⟨none, [], false, none, Mode.general, "", none, none⟩).1 rfl

/-! ### Claim C5 -/

/-- C5: for every state, the `back` transition sets the previous File Map to
the current File Map, clears the current File Map, clears the Diff Result,
and leaves the Specification and every other held value (error, loading,
feedback, mode) unchanged. -/
theorem c5_back_transition (s : AppState) :
    (handleBack s).oldFiles = some s.files
      ∧ (handleBack s).files = []
      ∧ (handleBack s).diff = none
      ∧ (handleBack s).cps = s.cps
      ∧ (handleBack s).error = s.error
      ∧ (handleBack s).loading = s.loading
      ∧ (handleBack s).feedback = s.feedback
      ∧ (handleBack s).mode = s.mode :=
  ⟨rfl, rfl, rfl, rfl, rfl, rfl, rfl, rfl⟩

/-! ### Claim C9 -/

/-- C9: invoking `refine` with an empty feedback text is a no-op: no request
is sent to the refinement collaborator and the whole state (File Map,
previous File Map, Diff Result, Specification, error, loading flag) is
unchanged. -/
theorem c9_refine_empty_feedback (s : AppState) (r : FetchResult RefineData)
    (h : s.feedback = "") : handleRefine s r = (s, none) := by
  simp [handleRefine, h]

/-- Witness for C9 at a concrete state with empty feedback. -/
theorem c9_refine_empty_feedback_witness :
    (⟨none, [("a.py", "x")], false, none, Mode.general, "", none, none⟩ : AppState).feedback = ""
      ∧ handleRefine ⟨none, [("a.py", "x")], false, none, Mode.general, "", none, none⟩
          (FetchResult.thrown "e")
        = (⟨none, [("a.py", "x")], false, none, Mode.general, "", none, none⟩, none) := by
  refine ⟨rfl, ?_⟩
  exact c9_refine_empty_feedback
    ⟨none, [("a.py", "x")], false, none, Mode.general, "", none, none⟩
    (FetchResult.thrown "e") rfl

/-! ### Claim C10 -/

theorem lookupFile_cons (k v q : String) (rest : FileMap) :
    lookupFile ((k, v) :: rest) q = if k = q then some v else lookupFile rest q := by
  by_cases h : k = q
  · simp [lookupFile, List.find?, h]
  · simp only [lookupFile, List.find?]
    rw [show (((k, v).1 == q) : Bool) = false from by simpa using h]
    simp [lookupFile, h]

/-- C10: applying an in-place file edit `(path, content)` forwarded by the
File Browser produces a File Map whose entry for the edited path equals the
new content, whose entry for every other path equals its previous value, and
which contains no keys other than the previous ones plus possibly the edited
path. -/
theorem c10_update_file (m : FileMap) (p c : String) :
    lookupFile (updateFile m p c) p = some c
      ∧ (∀ q, q ≠ p → lookupFile (updateFile m p c) q = lookupFile m q)
      ∧ (∀ q, q ≠ p → (q ∈ keysOf (updateFile m p c) ↔ q ∈ keysOf m))
      ∧ p ∈ keysOf (updateFile m p c) := by
  induction m with
  | nil =>
    refine ⟨?_, ?_, ?_, ?_⟩
    · simp [updateFile, lookupFile_cons]
    · intro q hq
      rw [show updateFile [] p c = [(p, c)] from rfl, lookupFile_cons]
      rw [if_neg (fun h => hq h.symm)]
    · intro q hq
      rw [show updateFile [] p c = [(p, c)] from rfl]
      simp [keysOf, hq]
    · simp [updateFile, keysOf]
  | cons kv rest ih =>
    obtain ⟨k, v⟩ := kv
    by_cases hk : k = p
    · have hstep : updateFile ((k, v) :: rest) p c = (p, c) :: rest := by
        simp [updateFile, hk]
      refine ⟨?_, ?_, ?_, ?_⟩
      · rw [hstep, lookupFile_cons]
        simp
      · intro q hq
        have hpq : ¬ (p = q) := fun h => hq h.symm
        have hkq : ¬ (k = q) := fun h => hpq (by rw [← hk, h])
        rw [hstep, lookupFile_cons, lookupFile_cons, if_neg hpq, if_neg hkq]
      · intro q hq
        rw [hstep]
        simp only [keysOf, List.map, List.mem_cons]
        rw [hk]
      · rw [hstep]
        simp [keysOf]
    · have hstep : updateFile ((k, v) :: rest) p c = (k, v) :: updateFile rest p c := by
        simp [updateFile, hk]
      refine ⟨?_, ?_, ?_, ?_⟩
      · rw [hstep, lookupFile_cons, if_neg hk]
        exact ih.1
      · intro q hq
        rw [hstep, lookupFile_cons, lookupFile_cons]
        by_cases hkq : k = q
        · simp [hkq]
        · rw [if_neg hkq, if_neg hkq]
          exact ih.2.1 q hq
      · intro q hq
        rw [hstep]
        simp only [keysOf, List.map, List.mem_cons]
        rw [show List.map Prod.fst (updateFile rest p c) = keysOf (updateFile rest p c) from rfl]
        rw [show List.map Prod.fst rest = keysOf rest from rfl]
        rw [ih.2.2.1 q hq]
      · rw [hstep]
        simp only [keysOf, List.map, List.mem_cons]
        right
        exact ih.2.2.2

/-- Witness for C10 at a concrete file map, edit and frame path. -/
theorem c10_update_file_witness :
    lookupFile (updateFile [("x", "1")] "y" "2") "y" = some "2"
      ∧ ("x" ≠ "y"
          ∧ lookupFile (updateFile [("x", "1")] "y" "2") "x" = lookupFile [("x", "1")] "x") := by
  refine ⟨(c10_update_file [("x", "1")] "y" "2").1, by decide, ?_⟩
  exact (c10_update_file [("x", "1")] "y" "2").2.1 "x" (by decide)

/-! ### Claim C6 -/

/-- C6: on receipt of a non-empty File Map with no selection, the File
Browser selects, in priority order, a path ending in `README.md`, else a
path ending in `main.py`, else the first path of the map; and an existing
(truthy) selection is never overridden.  The policy is a pure function of
the selection and the File Map, hence deterministic. -/
theorem c6_initial_selection (files : FileMap) (h : files ≠ []) :
    ((∃ p ∈ keysOf files, strEndsWith p "README.md" = true) →
        ∃ p, initialSelection none files = some p ∧ p ∈ keysOf files
          ∧ strEndsWith p "README.md" = true)
      ∧ ((¬ ∃ p ∈ keysOf files, strEndsWith p "README.md" = true) →
          (∃ p ∈ keysOf files, strEndsWith p "main.py" = true) →
          ∃ p, initialSelection none files = some p ∧ p ∈ keysOf files
            ∧ strEndsWith p "main.py" = true)
      ∧ ((¬ ∃ p ∈ keysOf files, strEndsWith p "README.md" = true) →
          (¬ ∃ p ∈ keysOf files, strEndsWith p "main.py" = true) →
          initialSelection none files = some ((keysOf files).headD ""))
      ∧ (∀ sel files2, strTruthy sel = true → initialSelection sel files2 = sel) := by
  have hcond : (!strTruthy none && !files.isEmpty) = true := by
    cases files with
    | nil => exact absurd rfl h
    | cons a l => simp [strTruthy, List.isEmpty]
  refine ⟨?_, ?_, ?_, ?_⟩
  · intro hex
    cases hfind : (keysOf files).find? (fun p => strEndsWith p "README.md") with
    | none =>
      obtain ⟨p, hp, hend⟩ := hex
      exact absurd hend (List.find?_eq_none.1 hfind p hp)
    | some p =>
      refine ⟨p, ?_, List.mem_of_find?_eq_some hfind, ?_⟩
      · simp only [initialSelection, hcond, if_pos, hfind]
        rfl
      · have hps := List.find?_some hfind
        simpa using hps
  · intro hnoR hex
    have hfindR : (keysOf files).find? (fun p => strEndsWith p "README.md") = none := by
      rw [List.find?_eq_none]
      intro x hx hpx
      exact hnoR ⟨x, hx, hpx⟩
    cases hfind : (keysOf files).find? (fun p => strEndsWith p "main.py") with
    | none =>
      obtain ⟨p, hp, hend⟩ := hex
      exact absurd hend (List.find?_eq_none.1 hfind p hp)
    | some p =>
      refine ⟨p, ?_, List.mem_of_find?_eq_some hfind, ?_⟩
      · simp only [initialSelection, hcond, if_pos, hfindR, hfind]
        rfl
      · have hps := List.find?_some hfind
        simpa using hps
  · intro hnoR hnoM
    have hfindR : (keysOf files).find? (fun p => strEndsWith p "README.md") = none := by
      rw [List.find?_eq_none]
      intro x hx hpx
      exact hnoR ⟨x, hx, hpx⟩
    have hfindM : (keysOf files).find? (fun p => strEndsWith p "main.py") = none := by
      rw [List.find?_eq_none]
      intro x hx hpx
      exact hnoM ⟨x, hx, hpx⟩
    simp only [initialSelection, hcond, if_pos, hfindR, hfindM]
    rfl
  · intro sel files2 htruthy
    simp [initialSelection, htruthy]

/-- Witness for C6: the File Map of Scenario 2, `{"main.py": …, "README.md": …}`,
auto-selects `README.md`; a pre-existing selection is kept. -/
theorem c6_initial_selection_witness :
    (([("main.py", "m"), ("README.md", "r")] : FileMap) ≠ []
        ∧ (∃ p ∈ keysOf [("main.py", "m"), ("README.md", "r")],
            strEndsWith p "README.md" = true))
      ∧ (∃ p, initialSelection none [("main.py", "m"), ("README.md", "r")] = some p
          ∧ p ∈ keysOf [("main.py", "m"), ("README.md", "r")]
          ∧ strEndsWith p "README.md" = true)
      ∧ initialSelection (some "main.py") [("main.py", "m"), ("README.md", "r")]
          = some "main.py" := by
  refine ⟨⟨by decide, by decide⟩, ?_, ?_⟩
  · exact (c6_initial_selection [("main.py", "m"), ("README.md", "r")] (by decide)).1 (by decide)
  · exact (c6_initial_selection [("main.py", "m"), ("README.md", "r")] (by decide)).2.2.2
      (some "main.py") [("main.py", "m"), ("README.md", "r")] (by decide)

/-! ### Claim C8 -/

/-- Counterexample to C8 as stated: issue request 1 (whose response carries
`true`) and then request 2 (whose response carries `false`); if request 2's
response arrives first and request 1's arrives second, the held validation
result is request 1's — a response to a superseded request overwrites the
result of the newer request, because `setValidation(data)` is applied
unconditionally on every arrival. -/
theorem c8_counterexample :
    applyValidationArrivals none
        [FetchResult.ok (Json.bool false), FetchResult.ok (Json.bool true)]
      = some (Json.bool true)
      ∧ Json.bool true ≠ Json.bool false := by
  refine ⟨rfl, ?_⟩
  intro hcontra
  simp at hcontra

/-- C8 (amended): the validation result held after a sequence of response
arrivals is that of the response that arrived last (last response wins,
regardless of issue order); a thrown request leaves the result unchanged. -/
theorem c8_last_arrival_wins (v : Option Json) (rs : List (FetchResult Json)) (r : Json) :
    applyValidationArrivals v (rs ++ [FetchResult.ok r]) = some r := by
  unfold applyValidationArrivals
  rw [List.foldl_append]
  rfl

/-! ### Claim C7 -/

theorem getField_cons (k j : String) (jv : Json) (rest : List (String × Json)) :
    getField ((k, jv) :: rest) j = if k = j then some jv else getField rest j := by
  by_cases h : k = j
  · simp [getField, List.find?, h]
  · simp only [getField, List.find?]
    rw [show (((k, jv).1 == j) : Bool) = false from by simpa using h]
    simp [getField, h]

theorem getField_setField_self (fields : List (String × Json)) (k : String) (v : Json) :
    getField (setField fields k v) k = some v := by
  induction fields with
  | nil =>
    rw [show setField [] k v = [(k, v)] from rfl, getField_cons]
    simp
  | cons f fs ih =>
    obtain ⟨k1, v1⟩ := f
    by_cases h : k1 = k
    · rw [show setField ((k1, v1) :: fs) k v = (k, v) :: fs from by simp [setField, h]]
      rw [getField_cons]
      simp
    · rw [show setField ((k1, v1) :: fs) k v = (k1, v1) :: setField fs k v from by
        simp [setField, h]]
      rw [getField_cons, if_neg h]
      exact ih

theorem getField_setField_other (fields : List (String × Json)) (k : String) (v : Json)
    (q : String) (h : q ≠ k) : getField (setField fields k v) q = getField fields q := by
  induction fields with
  | nil =>
    rw [show setField [] k v = [(k, v)] from rfl, getField_cons,
      if_neg (fun hh => h hh.symm)]
  | cons f fs ih =>
    obtain ⟨k1, v1⟩ := f
    by_cases hk : k1 = k
    · rw [show setField ((k1, v1) :: fs) k v = (k, v) :: fs from by simp [setField, hk]]
      rw [getField_cons, getField_cons, if_neg (fun hh => h hh.symm),
        if_neg (fun hh => h (hk.symm.trans hh).symm)]
    · rw [show setField ((k1, v1) :: fs) k v = (k1, v1) :: setField fs k v from by
        simp [setField, hk]]
      rw [getField_cons, getField_cons]
      by_cases hq : k1 = q
      · simp [hq]
      · rw [if_neg hq, if_neg hq]
        exact ih

theorem getPath_nil_fields (q : List String) (h : q ≠ []) : getPath [] q = none := by
  match q with
  | [] => exact absurd rfl h
  | [k] => simp [getPath, getField]
  | k :: k2 :: qr => simp [getPath, getField]

theorem getPath_cons_cons (fields : List (String × Json)) (k q2 : String) (qr : List String) :
    getPath fields (k :: q2 :: qr)
      = match getField fields k with
        | some (Json.obj inner) => getPath inner (q2 :: qr)
        | _ => none := rfl

/-- Counterexample to C7 as stated: on the specification `{a: 5}` with field
path `[a, b]`, the walk reaches the truthy primitive `5` and the property
assignment on a primitive throws a `TypeError` in strict mode — no updated
specification with the leaf bound to the value is produced. -/
theorem c7_counterexample :
    updateNested [("a", Json.num 5)] ["a", "b"] (Json.str "v")
      = Except.error "TypeError: cannot create a property on a primitive value" := rfl

/-- C7 (amended): for every specification object, non-empty field path and
value, provided every existing value at a proper position strictly inside
the path is a nested group (object) or falsy, the structured field update
succeeds, creates the missing (or falsy-valued) intermediate groups, binds
the leaf to the value, and leaves the value at every key path diverging from
the edited path unchanged. -/
theorem c7_update_nested (fields : List (String × Json)) (path : List String) (v : Json)
    (hne : path ≠ []) (hclear : pathClear fields path = true) :
    ∃ out, updateNested fields path v = Except.ok out
      ∧ getPath out path = some v
      ∧ ∀ q, (¬ q <+: path) → (¬ path <+: q) → getPath out q = getPath fields q := by
  induction path generalizing fields with
  | nil => exact absurd rfl hne
  | cons k tail ih =>
    cases tail with
    | nil =>
      refine ⟨setField fields k v, rfl, ?_, ?_⟩
      · simp only [getPath]
        exact getField_setField_self fields k v
      · intro q hq1 hq2
        rcases q with _ | ⟨j, qr⟩
        · rfl
        · have hjk : j ≠ k := by
            intro hjk
            subst hjk
            exact hq2 (List.cons_prefix_cons.2 ⟨rfl, List.nil_prefix⟩)
          rcases qr with _ | ⟨j2, qr2⟩
          · simp only [getPath]
            exact getField_setField_other fields k v j hjk
          · rw [getPath_cons_cons, getPath_cons_cons,
              getField_setField_other fields k v j hjk]
    | cons k2 rest =>
      cases hget : getField fields k with
      | none =>
        have hinner : pathClear ([] : List (String × Json)) (k2 :: rest) = true := by
          cases rest with
          | nil => rfl
          | cons r rs => simp [pathClear, getField]
        obtain ⟨inner2, hok, hleaf, hframe⟩ := ih [] (by simp) hinner
        refine ⟨setField fields k (Json.obj inner2), ?_, ?_, ?_⟩
        · simp only [updateNested, hget, hok]
        · rw [getPath_cons_cons, getField_setField_self]
          exact hleaf
        · intro q hq1 hq2
          rcases q with _ | ⟨j, qr⟩
          · rfl
          by_cases hjk : j = k
          · subst hjk
            rcases qr with _ | ⟨q2, qr2⟩
            · exact absurd (List.cons_prefix_cons.2 ⟨rfl, List.nil_prefix⟩) hq1
            · rw [getPath_cons_cons, getPath_cons_cons, getField_setField_self, hget]
              have hq1t : ¬ (q2 :: qr2) <+: (k2 :: rest) := by
                intro hc
                exact hq1 (List.cons_prefix_cons.2 ⟨rfl, hc⟩)
              have hq2t : ¬ (k2 :: rest) <+: (q2 :: qr2) := by
                intro hc
                exact hq2 (List.cons_prefix_cons.2 ⟨rfl, hc⟩)
              have hz : getPath inner2 (q2 :: qr2) = none := by
                rw [hframe (q2 :: qr2) hq1t hq2t]
                exact getPath_nil_fields (q2 :: qr2) (by simp)
              exact hz
          · rcases qr with _ | ⟨q2, qr2⟩
            · simp only [getPath]
              exact getField_setField_other fields k (Json.obj inner2) j hjk
            · rw [getPath_cons_cons, getPath_cons_cons,
                getField_setField_other fields k (Json.obj inner2) j hjk]
      | some j =>
        by_cases hfalsy : falsy j = true
        · have hjnotobj : ∀ inner, j ≠ Json.obj inner := by
            intro inner hj
            rw [hj] at hfalsy
            simp [falsy] at hfalsy
          have hinner : pathClear ([] : List (String × Json)) (k2 :: rest) = true := by
            cases rest with
            | nil => rfl
            | cons r rs => simp [pathClear, getField]
          obtain ⟨inner2, hok, hleaf, hframe⟩ := ih [] (by simp) hinner
          refine ⟨setField fields k (Json.obj inner2), ?_, ?_, ?_⟩
          · simp only [updateNested, hget, hfalsy, if_pos, hok]
          · rw [getPath_cons_cons, getField_setField_self]
            exact hleaf
          · intro q hq1 hq2
            rcases q with _ | ⟨j2, qr⟩
            · rfl
            by_cases hjk : j2 = k
            · subst hjk
              rcases qr with _ | ⟨q2, qr2⟩
              · exact absurd (List.cons_prefix_cons.2 ⟨rfl, List.nil_prefix⟩) hq1
              · rw [getPath_cons_cons, getPath_cons_cons, getField_setField_self, hget]
                have hq1t : ¬ (q2 :: qr2) <+: (k2 :: rest) := by
                  intro hc
                  exact hq1 (List.cons_prefix_cons.2 ⟨rfl, hc⟩)
                have hq2t : ¬ (k2 :: rest) <+: (q2 :: qr2) := by
                  intro hc
                  exact hq2 (List.cons_prefix_cons.2 ⟨rfl, hc⟩)
                have hz : getPath inner2 (q2 :: qr2) = none := by
                  rw [hframe (q2 :: qr2) hq1t hq2t]
                  exact getPath_nil_fields (q2 :: qr2) (by simp)
                cases j with
                | obj inner => exact absurd rfl (hjnotobj inner)
                | null => exact hz
                | bool b => exact hz
                | num n => exact hz
                | str s => exact hz
                | arr l => exact hz
            · rcases qr with _ | ⟨q2, qr2⟩
              · simp only [getPath]
                exact getField_setField_other fields k (Json.obj inner2) j2 hjk
              · rw [getPath_cons_cons, getPath_cons_cons,
                  getField_setField_other fields k (Json.obj inner2) j2 hjk]
        · have hclear2 : pathClear fields (k :: k2 :: rest) = true := hclear
          simp only [pathClear, hget] at hclear2
          rw [if_neg hfalsy] at hclear2
          cases j with
          | obj inner =>
            have hinner : pathClear inner (k2 :: rest) = true := hclear2
            obtain ⟨inner2, hok, hleaf, hframe⟩ := ih inner (by simp) hinner
            refine ⟨setField fields k (Json.obj inner2), ?_, ?_, ?_⟩
            · simp only [updateNested, hget]
              rw [if_neg hfalsy]
              simp only [hok]
            · rw [getPath_cons_cons, getField_setField_self]
              exact hleaf
            · intro q hq1 hq2
              rcases q with _ | ⟨j2, qr⟩
              · rfl
              by_cases hjk : j2 = k
              · subst hjk
                rcases qr with _ | ⟨q2, qr2⟩
                · exact absurd (List.cons_prefix_cons.2 ⟨rfl, List.nil_prefix⟩) hq1
                · rw [getPath_cons_cons, getPath_cons_cons, getField_setField_self, hget]
                  have hq1t : ¬ (q2 :: qr2) <+: (k2 :: rest) := by
                    intro hc
                    exact hq1 (List.cons_prefix_cons.2 ⟨rfl, hc⟩)
                  have hq2t : ¬ (k2 :: rest) <+: (q2 :: qr2) := by
                    intro hc
                    exact hq2 (List.cons_prefix_cons.2 ⟨rfl, hc⟩)
                  exact hframe (q2 :: qr2) hq1t hq2t
              · rcases qr with _ | ⟨q2, qr2⟩
                · simp only [getPath]
                  exact getField_setField_other fields k (Json.obj inner2) j2 hjk
                · rw [getPath_cons_cons, getPath_cons_cons,
                    getField_setField_other fields k (Json.obj inner2) j2 hjk]
          | null => simp [falsy] at hfalsy
          | bool b =>
            simp [falsy] at hfalsy
            rw [hfalsy] at hclear2
            simp at hclear2
          | num n => simp at hclear2
          | str s => simp at hclear2
          | arr l => simp at hclear2

/-- Witness for C7 (amended) at the claim's own example: setting `[a, b]` to
`v` on `{a: {b: 1, c: 2}}` yields `{a: {b: v, c: 2}}`, sibling `c` untouched. -/
theorem c7_update_nested_witness :
    ((["a", "b"] : List String) ≠ []
        ∧ pathClear [("a", Json.obj [("b", Json.num 1), ("c", Json.num 2)])] ["a", "b"] = true)
      ∧ (∃ out,
          updateNested [("a", Json.obj [("b", Json.num 1), ("c", Json.num 2)])] ["a", "b"]
              (Json.str "v")
            = Except.ok out
          ∧ getPath out ["a", "b"] = some (Json.str "v")
          ∧ ∀ q, (¬ q <+: ["a", "b"]) → (¬ ["a", "b"] <+: q) →
              getPath out q
                = getPath [("a", Json.obj [("b", Json.num 1), ("c", Json.num 2)])] q)
      ∧ updateNested [("a", Json.obj [("b", Json.num 1), ("c", Json.num 2)])] ["a", "b"]
          (Json.str "v")
        = Except.ok [("a", Json.obj [("b", Json.str "v"), ("c", Json.num 2)])] := by
  refine ⟨⟨by simp, rfl⟩, ?_, rfl⟩
  exact c7_update_nested [("a", Json.obj [("b", Json.num 1), ("c", Json.num 2)])]
    ["a", "b"] (Json.str "v") (by simp) rfl
